import Mathlib

/-! Options of the memtier policy
(`pkg/cri/resource-manager/policy/builtin/memtier/flags.go`).

A shallow embedding of the option block of the memtier policy: the `Duration`
JSON codec, the `fakehints` map with its `merge` method, and `defaultOptions`.
The load of a document over an instance, which the configuration registry
performs outside this file, is described separately and marked as such.

Conventions of the embedding.

* A Go `string` / `[]byte` is a `List Nat` of byte values.
* `Duration` (`int64` nanoseconds) is an `Int`; `Int64` says that it is in range.
* `uint64` arithmetic is `Nat` arithmetic reduced `% 2 ^ 64`.
* `float64` values (only non-negative ones occur) are the type `F64` below.
* The two functions of Go's `time` package that the codec calls,
  `time.Duration.String` and `time.ParseDuration`, are embedded from the
  standard library source (`time/time.go`, `time/format.go`, Go 1.18 and later).
-/

namespace Memtier

/-! ## Bytes and strings -/

/-- The bytes of an ASCII string literal. -/
def str (s : String) : List Nat := s.toList.map Char.toNat

deriving instance DecidableEq for Except

/-- Range of an `int64`. -/
def Int64 (d : Int) : Prop := -(2 : Int) ^ 63 ≤ d ∧ d < (2 : Int) ^ 63

instance (d : Int) : Decidable (Int64 d) := by unfold Int64; infer_instance

/-- Conversion `uint64(d)` of an `int64`. -/
def toUint64 (d : Int) : Nat := (d % (2 : Int) ^ 64).toNat

/-- Conversion `int64(u)` of a `uint64`. -/
def toInt64 (u : Nat) : Int :=
  if u % 2 ^ 64 < 2 ^ 63 then ((u % 2 ^ 64 : Nat) : Int)
  else ((u % 2 ^ 64 : Nat) : Int) - (2 : Int) ^ 64

/-- Negation of an `int64`, wrapping at the minimum value. -/
def negInt64 (d : Int) : Int := toInt64 (toUint64 (-d))

/-! ## `time.Duration.String` -/

/-- Go `time.Nanosecond`. -/
def Nanosecond : Nat := 1
/-- Go `time.Microsecond`. -/
def Microsecond : Nat := 1000 * Nanosecond
/-- Go `time.Millisecond`. -/
def Millisecond : Nat := 1000 * Microsecond
/-- Go `time.Second`. -/
def Second : Nat := 1000 * Millisecond
/-- Go `time.Minute`. -/
def Minute : Nat := 60 * Second
/-- Go `time.Hour`. -/
def Hour : Nat := 60 * Minute

/-- Loop of `fmtFrac`: `n` remaining iterations, `buf` the bytes written so far
(the tail of the buffer), `v` the value, `print` the flag. -/
def fmtFracLoop : Nat → List Nat → Nat → Bool → List Nat × Nat × Bool
  | 0, buf, v, print => (buf, v, print)
  | n + 1, buf, v, print =>
    let digit := v % 10
    let print := print || digit != 0
    let buf := if print then (digit + 48) :: buf else buf
    fmtFracLoop n buf (v / 10) print

/-- Go `time.fmtFrac`: formats the fraction of `v / 10 ^ prec` in front of
`buf`, omitting trailing zeros (and the point when the fraction is zero);
returns the new buffer tail and `v / 10 ^ prec`. -/
def fmtFrac (buf : List Nat) (v : Nat) (prec : Nat) : List Nat × Nat :=
  let r := fmtFracLoop prec buf v false
  (if r.2.2 then 46 :: r.1 else r.1, r.2.1)

/-- Loop `for v > 0` of `fmtInt`, with `fuel` bounding the iterations. -/
def fmtIntLoop : Nat → List Nat → Nat → List Nat
  | 0, buf, _ => buf
  | fuel + 1, buf, v =>
    if v > 0 then fmtIntLoop fuel ((v % 10 + 48) :: buf) (v / 10) else buf

/-- Go `time.fmtInt`: formats `v` in decimal in front of `buf`. The loop runs
once per decimal digit of `v`, so the fuel `v` is never exhausted
(`fmtIntLoop_fuel`). -/
def fmtInt (buf : List Nat) (v : Nat) : List Nat :=
  if v = 0 then 48 :: buf else fmtIntLoop v buf v

/-- Go `time.Duration.format` followed by `string(arr[n:])`, that is
`time.Duration.String`; the method `String` of `flags.go` returns the same text. -/
def Duration.String (d : Int) : List Nat :=
  let u := toUint64 d
  let neg := decide (d < 0)
  let u := if neg then (2 ^ 64 - u) % 2 ^ 64 else u
  if u < Second then
    let buf := [115]
    if u = 0 then 48 :: buf
    else
      let pb : Nat × List Nat :=
        if u < Microsecond then (0, 110 :: buf)
        else if u < Millisecond then (3, 0xC2 :: 0xB5 :: buf)
        else (6, 109 :: buf)
      let r := fmtFrac pb.2 u pb.1
      let buf := fmtInt r.1 r.2
      if neg then 45 :: buf else buf
  else
    let buf := [115]
    let r := fmtFrac buf u 9
    let buf := fmtInt r.1 (r.2 % 60)
    let u := r.2 / 60
    let buf :=
      if u > 0 then
        let buf := fmtInt (109 :: buf) (u % 60)
        let u := u / 60
        if u > 0 then fmtInt (104 :: buf) u else buf
      else buf
    if neg then 45 :: buf else buf

/-! ## `float64`

`time.ParseDuration` computes the contribution of a fractional part in
`float64`. Only non-negative values and `+Inf` arise there. Every finite
non-negative `float64` is an integer multiple of the least subnormal
`2 ^ (-1074)`, so a finite value is stored as that integer. -/

/-- Non-negative `float64`: `fin n` is the value `n * 2 ^ (-1074)`, `inf` is `+Inf`. -/
inductive F64 where
  | fin (n : Nat)
  | inf
  deriving DecidableEq, Repr

/-- The denominator `2 ^ 1074` of the fixed-point representation. -/
def F64.den : Nat := 1 <<< 1074

/-- The value `floor (log2 n)` for `0 < n < 2 ^ (2 ^ k)`, by binary search on the
exponent. -/
def log2Aux : Nat → Nat → Nat
  | 0, _ => 0
  | k + 1, n =>
    if n ≥ 1 <<< (1 <<< k) then (1 <<< k) + log2Aux k (n >>> (1 <<< k)) else log2Aux k n

/-- IEEE 754 round-to-nearest-even of the rational `p / q` (`q > 0`) to
`float64`, with gradual underflow and overflow to `+Inf`. In fixed-point units
the representable values are the integers below `2 ^ 53` and, in the binade
`[2 ^ j, 2 ^ (j + 1))` with `j ≥ 53`, the multiples of `2 ^ (j - 52)`. The
quotients that arise are below `2 ^ 4096`, the range of `log2Aux 12`. -/
def F64.round (p q : Nat) : F64 :=
  let t := p * F64.den
  let fl := t / q
  let ulp := if fl < 1 <<< 53 then 1 else 1 <<< (log2Aux 12 fl - 52)
  let d := q * ulp
  let m := t / d
  let r := t % d
  let m := if 2 * r > d ∨ (2 * r = d ∧ m % 2 = 1) then m + 1 else m
  let n := m * ulp
  if n ≥ 1 <<< 2098 then F64.inf else F64.fin n

/-- Conversion `float64(n)` of a `uint64`. -/
def F64.ofNat (n : Nat) : F64 := F64.round n 1

/-- Product of two `float64`. The product `0 * Inf` does not occur here. -/
def F64.mul : F64 → F64 → F64
  | .fin a, .fin b => F64.round (a * b) (F64.den * F64.den)
  | _, _ => .inf

/-- Quotient of two `float64`. The numerator is always finite and non-zero
here, so neither `0 / 0` nor `Inf / Inf` occurs. -/
def F64.div : F64 → F64 → F64
  | .fin a, .fin b => if b = 0 then .inf else F64.round a b
  | .fin _, .inf => .fin 0
  | .inf, _ => .inf

/-- Conversion `uint64(x)` of a `float64`: truncation toward zero. Its only
argument is the product of a fraction below one and a unit of at most an hour,
which is finite and far below `2 ^ 63`; the value given for `+Inf` is the one
of amd64 and is never used. -/
def F64.toUint64 : F64 → Nat
  | .fin n => (n / F64.den) % 2 ^ 64
  | .inf => 2 ^ 63

/-! ## `time.ParseDuration` -/

/-- Go `time.unitMap`: the unit names and their length in nanoseconds. The
micro sign U+00B5 is the bytes `C2 B5`, the Greek letter mu U+03BC is `CE BC`. -/
def unitMap (u : List Nat) : Option Nat :=
  if u = str "ns" then some Nanosecond
  else if u = str "us" then some Microsecond
  else if u = [0xC2, 0xB5, 115] then some Microsecond
  else if u = [0xCE, 0xBC, 115] then some Microsecond
  else if u = str "ms" then some Millisecond
  else if u = str "s" then some Second
  else if u = str "m" then some Minute
  else if u = str "h" then some Hour
  else none

/-- Index `i` into Go `time.lowerhex`. -/
def lowerhex (i : Nat) : Nat := if i < 10 then 48 + i else 87 + i

/-- Go `time.quote`. The source ranges over runes; a rune at or above `0x80`
has every one of its bytes written as `\xNN`, and so has an invalid byte, so
the result is determined byte by byte. -/
def quote (s : List Nat) : List Nat :=
  34 :: (s.flatMap fun c =>
    if c ≥ 0x80 ∨ c < 32 then [92, 120, lowerhex (c / 16), lowerhex (c % 16)]
    else if c = 34 ∨ c = 92 then [92, c]
    else [c]) ++ [34]

/-- Loop of `leadingInt`; `none` is `errLeadingInt`. -/
def leadingIntLoop : List Nat → Nat → Option (Nat × List Nat)
  | [], x => some (x, [])
  | c :: s, x =>
    if c < 48 ∨ c > 57 then some (x, c :: s)
    else if x > 2 ^ 63 / 10 then none
    else
      let x := (x * 10 + c - 48) % 2 ^ 64
      if x > 2 ^ 63 then none else leadingIntLoop s x

/-- Go `time.leadingInt`: consumes the leading `[0-9]*` of `s`. -/
def leadingInt (s : List Nat) : Option (Nat × List Nat) := leadingIntLoop s 0

/-- Loop of `leadingFraction`. -/
def leadingFractionLoop : List Nat → Nat → F64 → Bool → Nat × F64 × List Nat
  | [], x, scale, _ => (x, scale, [])
  | c :: s, x, scale, overflow =>
    if c < 48 ∨ c > 57 then (x, scale, c :: s)
    else if overflow then leadingFractionLoop s x scale overflow
    else if x > (2 ^ 63 - 1) / 10 then leadingFractionLoop s x scale true
    else
      let y := (x * 10 + c - 48) % 2 ^ 64
      if y > 2 ^ 63 then leadingFractionLoop s x scale true
      else leadingFractionLoop s y (F64.mul scale (F64.ofNat 10)) false

/-- Go `time.leadingFraction`: consumes the leading `[0-9]*` of `s`; on
overflow it stops accumulating precision. -/
def leadingFraction (s : List Nat) : Nat × F64 × List Nat :=
  leadingFractionLoop s 0 (F64.ofNat 1) false

/-- The byte may start a number: `c == '.' || '0' <= c && c <= '9'`. -/
def isNumByte (c : Nat) : Bool := c == 46 || (48 ≤ c && c ≤ 57)

/-- The expression `uint64(float64(f) * (float64(unit) / scale))`. -/
def fracNs (f unit : Nat) (scale : F64) : Nat :=
  F64.toUint64 (F64.mul (F64.ofNat f) (F64.div (F64.ofNat unit) scale))

/-- The error `"time: invalid duration " + quote(orig)`. -/
def errInvalid (orig : List Nat) : List Nat := str "time: invalid duration " ++ quote orig

/-- The error `"time: missing unit in duration " + quote(orig)`. -/
def errMissingUnit (orig : List Nat) : List Nat :=
  str "time: missing unit in duration " ++ quote orig

/-- The error `"time: unknown unit " + quote(u) + " in duration " + quote(orig)`. -/
def errUnknownUnit (u orig : List Nat) : List Nat :=
  str "time: unknown unit " ++ quote u ++ str " in duration " ++ quote orig

/-- Outcome of one iteration of the loop of `time.ParseDuration`: an error is
returned, or the loop goes on with the rest `s` and the accumulator `d`. -/
inductive Step where
  | fail (err : List Nat)
  | next (s : List Nat) (d : Nat)
  deriving DecidableEq, Repr

/-- The step `Consume (\.[0-9]*)?` of the loop body: the fraction `f`, its
`scale`, the rest, and `post`, whether a digit was consumed after the point. -/
def fractionPart (s : List Nat) : Nat × F64 × List Nat × Bool :=
  match s with
  | 46 :: s1 =>
    let r := leadingFraction s1
    (r.1, r.2.1, r.2.2, s1.length != r.2.2.length)
  | _ => (0, F64.ofNat 1, s, false)

/-- The end of the loop body, from the overflow test `v > 1<<63/unit` on: the
chunk `v + f/scale` in the unit `unit` is added to the accumulator `d`. -/
def addChunk (orig : List Nat) (v f : Nat) (scale : F64) (unit : Nat) (s : List Nat) (d : Nat) :
    Step :=
  if v > 2 ^ 63 / unit then .fail (errInvalid orig)
  else
    let v := (v * unit) % 2 ^ 64
    let v := if f > 0 then (v + fracNs f unit scale) % 2 ^ 64 else v
    if f > 0 ∧ v > 2 ^ 63 then .fail (errInvalid orig)
    else
      let d := (d + v) % 2 ^ 64
      if d > 2 ^ 63 then .fail (errInvalid orig)
      else .next s d

/-- Body of the loop `for s != ""` of `time.ParseDuration`, entered with the
non-empty rest `c :: s0` and the accumulator `d`. -/
def parseChunk (orig : List Nat) (c : Nat) (s0 : List Nat) (d : Nat) : Step :=
  if !isNumByte c then .fail (errInvalid orig)
  else
    let pl := (c :: s0).length
    match leadingInt (c :: s0) with
    | none => .fail (errInvalid orig)
    | some (v, s) =>
      let pre := pl != s.length
      let fr := fractionPart s
      let f := fr.1
      let scale := fr.2.1
      let s := fr.2.2.1
      let post := fr.2.2.2
      if !pre && !post then .fail (errInvalid orig)
      else
        let u := s.takeWhile fun c => !isNumByte c
        let s := s.dropWhile fun c => !isNumByte c
        if u.length = 0 then .fail (errMissingUnit orig)
        else
          match unitMap u with
          | none => .fail (errUnknownUnit u orig)
          | some unit => addChunk orig v f scale unit s d

/-- The loop `for s != ""` of `time.ParseDuration`, with accumulator `d`.
Every iteration that continues has consumed at least the unit, so `fuel` equal
to the length of `s` is never exhausted (`parseLoop_total`); `none` is returned
only when the fuel runs out. -/
def parseLoop (orig : List Nat) : Nat → List Nat → Nat → Option (Except (List Nat) Nat)
  | _, [], d => some (.ok d)
  | 0, _ :: _, _ => none
  | fuel + 1, c :: s0, d =>
    match parseChunk orig c s0 d with
    | .fail err => some (.error err)
    | .next s d => parseLoop orig fuel s d

/-- The step `Consume [-+]?` of `time.ParseDuration`: the text without its
leading sign, if it has one. -/
def dropSign (s : List Nat) : List Nat :=
  match s with
  | c :: s1 => if c = 45 ∨ c = 43 then s1 else c :: s1
  | [] => []

/-- Go `time.ParseDuration`. -/
def ParseDuration (orig : List Nat) : Except (List Nat) Int :=
  let neg : Bool := match orig with
    | c :: _ => c == 45
    | [] => false
  let s := dropSign orig
  if s = str "0" then .ok 0
  else if s = [] then .error (errInvalid orig)
  else
    match parseLoop orig s.length s 0 with
    | none => .error []
    | some (.error e) => .error e
    | some (.ok d) =>
      if neg then .ok (negInt64 (toInt64 d))
      else if d > 2 ^ 63 - 1 then .error (errInvalid orig)
      else .ok (toInt64 d)

/-! ## The `Duration` codec of `flags.go` -/

/-- A Go `error` value: `none` is `nil`, `some msg` an error with that message. -/
abbrev Error := Option (List Nat)

/-- The method `func (d Duration) MarshalJSON() ([]byte, error)`. -/
def Duration.MarshalJSON (d : Int) : List Nat × Error :=
  (str "\"" ++ Duration.String d ++ str "\"", none)

/-- The method `func (d *Duration) UnmarshalJSON(data []byte) error`. The first
argument is the value `*d` holds before the call; the result is the returned
error and the value `*d` holds afterwards. -/
def Duration.UnmarshalJSON (d : Int) (data : List Nat) : Error × Int :=
  if data.length < 2 then (some (str "invalid Duration data"), d)
  else
    match ParseDuration ((data.take (data.length - 1)).drop 1) with
    | .error err => (some err, d)
    | .ok parsed => (none, parsed)

/-! ## Memory

`fakehints` is a Go map, a reference type: its value is `nil` or a reference to
a map object. `merge` has a pointer receiver and `defaultOptions` returns a
pointer to a fresh struct. The memory holds the map objects, the `options`
structs and the other variables of type `fakehints`. The element type
`topology.Hints` is declared elsewhere and is a parameter `H`. -/

/-- A map object: its entries, one per key. -/
abbrev MapObj (H : Type) := List (List Nat × H)

/-- The type `fakehints map[string]topology.Hints`: `none` is the nil map, `some a`
the map object at address `a`. -/
abbrev fakehints := Option Nat

/-- The struct type `options`. -/
structure options where
  PinCPU : Bool
  PinMemory : Bool
  PreferIsolated : Bool
  PreferShared : Bool
  FakeHints : fakehints
  DirtyBitScanPeriod : Int
  PageMovePeriod : Int
  PageMoveCount : Nat
  deriving DecidableEq, Repr

/-- The memory. -/
structure Mem (H : Type) where
  maps : List (MapObj H)
  opts : List options
  vars : List fakehints

/-- A `*fakehints`: nil, the address of a variable, or the address of the
`FakeHints` field of the `options` struct at `o`. -/
inductive FakehintsPtr where
  | nil
  | var (i : Nat)
  | field (o : Nat)
  deriving DecidableEq, Repr

/-- A run-time panic. -/
inductive Panic where
  | nilDereference
  | badAddress
  | nilMap
  deriving DecidableEq, Repr

/-- The empty memory. -/
def Mem.empty (H : Type) : Mem H := ⟨[], [], []⟩

/-- Read `*p`. -/
def Mem.load {H : Type} (m : Mem H) : FakehintsPtr → Except Panic fakehints
  | .nil => .error .nilDereference
  | .var i => match m.vars.get? i with
    | some v => .ok v
    | none => .error .badAddress
  | .field o => match m.opts.get? o with
    | some s => .ok s.FakeHints
    | none => .error .badAddress

/-- Write `*p = v`. -/
def Mem.store {H : Type} (m : Mem H) (p : FakehintsPtr) (v : fakehints) : Except Panic (Mem H) :=
  match p with
  | .nil => .error .nilDereference
  | .var i => if i < m.vars.length then .ok { m with vars := m.vars.set i v } else .error .badAddress
  | .field o => match m.opts.get? o with
    | some s => .ok { m with opts := m.opts.set o { s with FakeHints := v } }
    | none => .error .badAddress

/-- The Go expression `make(fakehints)`: allocates an empty map object. -/
def Mem.make {H : Type} (m : Mem H) : fakehints × Mem H :=
  (some m.maps.length, { m with maps := m.maps ++ [[]] })

/-- The entries of the map `fh`; a nil map has none. -/
def Mem.entries {H : Type} (m : Mem H) (fh : fakehints) : MapObj H :=
  match fh with
  | none => []
  | some a => (m.maps.get? a).getD []

/-- The Go expression `fh[k]` with its `ok` flag. -/
def Mem.lookup {H : Type} (m : Mem H) (fh : fakehints) (k : List Nat) : Option H :=
  (m.entries fh).lookup k

/-! ## `fakehints` and `defaultOptions` of `flags.go` -/

/-- The function `func newFakeHints() fakehints`. -/
def newFakeHints {H : Type} (m : Mem H) : fakehints × Mem H := m.make

/-- The method `func (fh *fakehints) merge(hints fakehints)`: the result is the
panic, or the memory after the call. -/
def merge {H : Type} (m : Mem H) (fh : FakehintsPtr) (_hints : fakehints) :
    Except Panic (Mem H) :=
  if fh = .nil then
    let r := newFakeHints m
    r.2.store fh r.1
  else .ok m

/-- The function `defaultOptions`, which returns a `*options` in an interface
value: the result is the address of the new `options` struct and the memory
after the call. -/
def defaultOptions {H : Type} (m : Mem H) : Nat × Mem H :=
  let r := m.make
  let o : options :=
    { PinCPU := true
      PinMemory := true
      PreferIsolated := true
      PreferShared := false
      FakeHints := r.1
      DirtyBitScanPeriod := 0
      PageMovePeriod := 0
      PageMoveCount := 0 }
  (r.2.opts.length, { r.2 with opts := r.2.opts ++ [o] })

/-- A sequence of calls `fh.merge(h)`, one for each `h` of the list in order;
it stops at the first panic. -/
def mergeAll {H : Type} (m : Mem H) (fh : FakehintsPtr) : List fakehints → Except Panic (Mem H)
  | [] => .ok m
  | h :: hs =>
    match merge m fh h with
    | .ok m1 => mergeAll m1 fh hs
    | .error e => .error e

/-- A memory for the example of the specification: the variable `0` holds the
map `{a: 1}` (object `0`) and the object `1` is the map `{b: 2}`. -/
def memTargetA : Mem Nat := ⟨[[(str "a", 1)], [(str "b", 2)]], [], [some 0]⟩

/-- A memory in which the variable `0` holds the nil map and the object `0`
is the map `{b: 2}`. -/
def memTargetNil : Mem Nat := ⟨[[(str "b", 2)]], [], [none]⟩

/-- The slice `data[1 : len(data)-1]`. -/
def inner (data : List Nat) : List Nat := (data.take (data.length - 1)).drop 1

/-! ## The duration grammar in words

The documentation of the codec describes the accepted texts as a signed
sequence of decimal numbers, each followed by a unit. The recognisers below
follow those words, for a given list of unit names. -/

/-- The byte is a decimal digit. -/
def isDigit (c : Nat) : Bool := 48 ≤ c && c ≤ 57

/-- A decimal number at the head of `s`: digits, then optionally a point and
digits, with at least one digit in all. The result is the text after it. -/
def dropNumber (s : List Nat) : Option (List Nat) :=
  match s.dropWhile isDigit with
  | 46 :: s1 =>
    if s.takeWhile isDigit = [] ∧ s1.takeWhile isDigit = [] then none
    else some (s1.dropWhile isDigit)
  | s1 => if s.takeWhile isDigit = [] then none else some s1

/-- One of the names `units` at the head of `s`, reaching to the next number
or to the end of the text. The result is the text after it. -/
def dropUnit (units : List (List Nat)) (s : List Nat) : Option (List Nat) :=
  if s.takeWhile (fun c => !isNumByte c) ∈ units then some (s.dropWhile fun c => !isNumByte c)
  else none

/-- The text `s` is a non-empty sequence of numbers, each followed by one of
`units`. The fuel bounds the number of pairs. -/
def numberUnitSeq (units : List (List Nat)) : Nat → List Nat → Bool
  | 0, _ => false
  | fuel + 1, s =>
    match dropNumber s with
    | none => false
    | some s1 =>
      match dropUnit units s1 with
      | none => false
      | some s2 => s2 = [] || numberUnitSeq units fuel s2

/-- The units `ns`, `us`, `ms`, `s`, `m`, `h`. -/
def plainUnits : List (List Nat) := [str "ns", str "us", str "ms", str "s", str "m", str "h"]

/-- The units of `plainUnits` and the two spellings of the microsecond with
the micro sign (U+00B5) and with the Greek letter mu (U+03BC). -/
def allUnits : List (List Nat) := [0xC2, 0xB5, 115] :: [0xCE, 0xBC, 115] :: plainUnits

/-- A valid duration string in the words of the documentation: a signed
sequence of decimal numbers, each followed by one of `ns`, `us`, `ms`, `s`,
`m`, `h`. -/
def plainDuration (s : List Nat) : Bool := numberUnitSeq plainUnits s.length (dropSign s)

/-- The wider set of texts: the text `0` with an optional sign, or a signed
sequence of decimal numbers, each followed by one of `allUnits`. -/
def wideDuration (s : List Nat) : Bool :=
  dropSign s = str "0" || numberUnitSeq allUnits s.length (dropSign s)

/-! ## Writes to a map and to a struct -/

/-- The entries of a map object after the Go statement `fh[k] = v`: the entry
of `k` is replaced, or added when there is none. -/
def insertEntry {H : Type} (es : MapObj H) (k : List Nat) (v : H) : MapObj H :=
  if es.any (fun e => e.1 == k) then es.map (fun e => if e.1 == k then (k, v) else e)
  else es ++ [(k, v)]

/-- The Go statement `fh[k] = v`: it panics on the nil map and writes to the
map object otherwise. -/
def Mem.insert {H : Type} (m : Mem H) (fh : fakehints) (k : List Nat) (v : H) :
    Except Panic (Mem H) :=
  match fh with
  | none => .error .nilMap
  | some a =>
    match m.maps.get? a with
    | some es => .ok { m with maps := m.maps.set a (insertEntry es k v) }
    | none => .error .badAddress

/-- The Go statement `*p = v` for a `p` of type `*options`; assigning to one
field of `*p` is the case in which `v` differs from `*p` in that field. -/
def Mem.storeOptions {H : Type} (m : Mem H) (p : Nat) (v : options) : Except Panic (Mem H) :=
  if p < m.opts.length then .ok { m with opts := m.opts.set p v } else .error .badAddress

/-- Two calls of `defaultOptions()` in a row: the two addresses returned and
the memory after the second call. -/
def twoDefaults {H : Type} (m : Mem H) : Nat × Nat × Mem H :=
  let r1 := defaultOptions m
  let r2 := defaultOptions r1.2
  (r1.1, r2.1, r2.2)

/-! ## Loading a document over an instance

The configuration registry that decodes a document over an `options` instance
is not part of `flags.go`. The definitions below describe its load step for
flat documents, for the field names the struct declares. -/

/-- Modelled from the spec: the white space between the tokens of a document,
for the document reader of the registry, which is not in `flags.go`. -/
def isSpace (c : Nat) : Bool := c == 32 || c == 9 || c == 10 || c == 13

/-- Modelled from the spec: the text without its leading white space, for the
document reader of the registry, which is not in `flags.go`. -/
def skipSpace (s : List Nat) : List Nat := s.dropWhile isSpace

/-- Modelled from the spec: a quoted string at the head of the text, for the
document reader of the registry, which is not in `flags.go`. The result is the
text between the quotes and the rest; a string with a backslash is outside
the modelled documents. -/
def stringToken : List Nat → Option (List Nat × List Nat)
  | 34 :: s =>
    match s.dropWhile (fun c => c != 34) with
    | 34 :: rest =>
      if (s.takeWhile fun c => c != 34).all (fun c => c != 92) then
        some (s.takeWhile (fun c => c != 34), rest)
      else none
    | _ => none
  | _ => none

/-- Modelled from the spec: the raw bytes of a value at the head of the text,
for the document reader of the registry, which is not in `flags.go`: a string
with its quotes, or the bytes up to the next comma, closing brace or white
space. -/
def valueToken (s : List Nat) : Option (List Nat × List Nat) :=
  match s with
  | 34 :: _ =>
    match stringToken s with
    | some (b, rest) => some (34 :: (b ++ [34]), rest)
    | none => none
  | _ =>
    if (s.takeWhile fun c => !(c == 44 || c == 125 || isSpace c)) = [] then none
    else some (s.takeWhile (fun c => !(c == 44 || c == 125 || isSpace c)),
      s.dropWhile (fun c => !(c == 44 || c == 125 || isSpace c)))

/-- Modelled from the spec: the members of a document after its opening
brace, each a name and the raw bytes of its value, for the document reader of
the registry, which is not in `flags.go`. The fuel bounds the number of
members. -/
def membersLoop : Nat → List Nat → Option (List (List Nat × List Nat))
  | 0, _ => none
  | fuel + 1, s =>
    match stringToken (skipSpace s) with
    | none => none
    | some (key, s1) =>
      match skipSpace s1 with
      | 58 :: s2 =>
        match valueToken (skipSpace s2) with
        | none => none
        | some (raw, s3) =>
          match skipSpace s3 with
          | 44 :: s4 =>
            match membersLoop fuel s4 with
            | some ms => some ((key, raw) :: ms)
            | none => none
          | 125 :: s4 => if skipSpace s4 = [] then some [(key, raw)] else none
          | _ => none
      | _ => none

/-- Modelled from the spec: the members of a document in object notation, for
the document reader of the registry, which is not in `flags.go`. -/
def members (doc : List Nat) : Option (List (List Nat × List Nat)) :=
  match skipSpace doc with
  | 123 :: s =>
    match skipSpace s with
    | 125 :: r => if skipSpace r = [] then some [] else none
    | _ => membersLoop doc.length s
  | _ => none

/-- Modelled from the spec: the value of a boolean field, for the decoder of
the registry, which is not in `flags.go`. -/
def decodeBool (raw : List Nat) : Option Bool :=
  if raw = str "true" then some true
  else if raw = str "false" then some false
  else none

/-- Modelled from the spec: the value of an unsigned integer field, a decimal
number that fits 64 bits, for the decoder of the registry, which is not in
`flags.go`. -/
def decodeUint (raw : List Nat) : Option Nat :=
  if raw = [] ∨ raw.any (fun c => !isDigit c) ∨ (raw.head? = some 48 ∧ raw ≠ [48]) then none
  else if raw.foldl (fun acc c => acc * 10 + (c - 48)) 0 < 2 ^ 64 then
    some (raw.foldl (fun acc c => acc * 10 + (c - 48)) 0)
  else none

/-- Modelled from the spec: a duration field is decoded by `UnmarshalJSON` on
the raw bytes of the value, quotes included, for the decoder of the registry,
which is not in `flags.go`. -/
def decodeDuration (old : Int) (raw : List Nat) : Option Int :=
  match Duration.UnmarshalJSON old raw with
  | (none, d) => some d
  | (some _, _) => none

/-- Modelled from the spec: one member of a document sets the field of that
name, for the decoder of the registry, which is not in `flags.go`. The names
are the ones the struct declares: `PinCPU`, `PinMemory`, `PreferIsolatedCPUs`,
`PreferSharedCPUs`, `DirtyBitScanPeriod`, `PageMovePeriod`, `PageMoveCount`.
`none` is a rejected load; a member `FakeHints`, whose value has the shape of
`topology.Hints`, and any other name are outside the modelled documents. -/
def setField (o : options) (key raw : List Nat) : Option options :=
  if key = str "PinCPU" then
    match decodeBool raw with
    | some b => some { o with PinCPU := b }
    | none => none
  else if key = str "PinMemory" then
    match decodeBool raw with
    | some b => some { o with PinMemory := b }
    | none => none
  else if key = str "PreferIsolatedCPUs" then
    match decodeBool raw with
    | some b => some { o with PreferIsolated := b }
    | none => none
  else if key = str "PreferSharedCPUs" then
    match decodeBool raw with
    | some b => some { o with PreferShared := b }
    | none => none
  else if key = str "DirtyBitScanPeriod" then
    match decodeDuration o.DirtyBitScanPeriod raw with
    | some d => some { o with DirtyBitScanPeriod := d }
    | none => none
  else if key = str "PageMovePeriod" then
    match decodeDuration o.PageMovePeriod raw with
    | some d => some { o with PageMovePeriod := d }
    | none => none
  else if key = str "PageMoveCount" then
    match decodeUint raw with
    | some n => some { o with PageMoveCount := n }
    | none => none
  else none

/-- Modelled from the spec: the members of a document are decoded in order
over the instance, for the decoder of the registry, which is not in
`flags.go`; fields that the document does not name keep their value. -/
def setFields (o : options) : List (List Nat × List Nat) → Option options
  | [] => some o
  | (key, raw) :: ms =>
    match setField o key raw with
    | some o1 => setFields o1 ms
    | none => none

/-- Modelled from the spec: the load step of the registry, which is not in
`flags.go`: a document is decoded over an instance. -/
def loadOver (o : options) (doc : List Nat) : Option options :=
  match members doc with
  | some ms => setFields o ms
  | none => none

/-- The document of the load scenario. -/
def scenarioDoc : List Nat :=
  str "\x7b\"PinCPU\": false, \"PageMoveCount\": 5, \"PageMovePeriod\": \"10s\"\x7d"

/-! ## Notions used in the proofs -/

/-- The byte is printable ASCII and neither a double quote nor a backslash:
`time.quote` copies it as it is. -/
def isPlainByte (c : Nat) : Bool := 32 ≤ c && c < 128 && c != 34 && c != 92

/-- The text does not begin with a digit. -/
def NoDigitHead (s : List Nat) : Prop := ∀ c ∈ s.head?, isDigit c = false

/-- The text is empty or begins a number. -/
def StartsNum (s : List Nat) : Prop := ∀ c ∈ s.head?, isNumByte c = true

/-- The text is a possible unit name: not empty, with no digit and no point. -/
def IsUnitName (u : List Nat) : Prop := u ≠ [] ∧ ∀ c ∈ u, isNumByte c = false

/-- The text of `Duration.String` for the absolute value `u`, without the sign. -/
def fmtAbs (u : Nat) : List Nat :=
  if u < Second then
    if u = 0 then [48, 115]
    else
      let pb : Nat × List Nat :=
        if u < Microsecond then (0, 110 :: [115])
        else if u < Millisecond then (3, 0xC2 :: 0xB5 :: [115])
        else (6, 109 :: [115])
      fmtInt (fmtFrac pb.2 u pb.1).1 (fmtFrac pb.2 u pb.1).2
  else
    let r := fmtFrac [115] u 9
    let buf := fmtInt r.1 (r.2 % 60)
    let u := r.2 / 60
    if u > 0 then
      let buf := fmtInt (109 :: buf) (u % 60)
      let u := u / 60
      if u > 0 then fmtInt (104 :: buf) u else buf
    else buf

/-! ## The parser consumes its input and accepts only the grammar -/
theorem length_takeWhile_add_dropWhile (p : Nat → Bool) (s : List Nat) :
    (s.takeWhile p).length + (s.dropWhile p).length = s.length := by
  induction s with
  | nil => rfl
  | cons c s ih =>
    by_cases h : p c <;> simp [List.takeWhile, List.dropWhile, h]
    omega

theorem leadingIntLoop_rest (s : List Nat) : ∀ (x v : Nat) (r : List Nat),
    leadingIntLoop s x = some (v, r) → r = s.dropWhile isDigit := by
  induction s with
  | nil => intro x v r h; simp [leadingIntLoop] at h; simp [h.2]
  | cons c s ih =>
    intro x v r h
    rw [leadingIntLoop] at h
    by_cases hc : c < 48 ∨ c > 57
    · rw [if_pos hc] at h
      have hd : isDigit c = false := by
        simp only [isDigit, Bool.and_eq_false_imp, decide_eq_true_eq, decide_eq_false_iff_not]
        omega
      simp only [Option.some.injEq, Prod.mk.injEq] at h
      simp [List.dropWhile, hd, h.2]
    · rw [if_neg hc] at h
      have hd : isDigit c = true := by
        simp only [isDigit, Bool.and_eq_true, decide_eq_true_eq]
        omega
      split at h
      · simp at h
      · simp only at h
        split at h
        · simp at h
        · simpa [List.dropWhile, hd] using ih _ _ _ h

theorem leadingFractionLoop_rest (s : List Nat) : ∀ (x : Nat) (sc : F64) (ov : Bool),
    (leadingFractionLoop s x sc ov).2.2 = s.dropWhile isDigit := by
  induction s with
  | nil => intro x sc ov; simp [leadingFractionLoop]
  | cons c s ih =>
    intro x sc ov
    rw [leadingFractionLoop]
    by_cases hc : c < 48 ∨ c > 57
    · rw [if_pos hc]
      have hd : isDigit c = false := by
        simp only [isDigit, Bool.and_eq_false_imp, decide_eq_true_eq, decide_eq_false_iff_not]
        omega
      simp [List.dropWhile, hd]
    · rw [if_neg hc]
      have hd : isDigit c = true := by
        simp only [isDigit, Bool.and_eq_true, decide_eq_true_eq]
        omega
      simp only [List.dropWhile, hd]
      split
      · exact ih _ _ _
      · split
        · exact ih _ _ _
        · split
          · exact ih _ _ _
          · exact ih _ _ _

theorem unitMap_some_mem (u : List Nat) (unit : Nat) (h : unitMap u = some unit) :
    u ∈ allUnits := by
  unfold unitMap at h
  simp only [allUnits, plainUnits, List.mem_cons, List.mem_singleton]
  split at h
  · simp [*]
  split at h
  · simp [*]
  split at h
  · simp [*]
  split at h
  · simp [*]
  split at h
  · simp [*]
  split at h
  · simp [*]
  split at h
  · simp [*]
  split at h
  · simp [*]
  · simp at h

theorem addChunk_next (orig : List Nat) (v f : Nat) (scale : F64) (unit : Nat)
    (s : List Nat) (d : Nat) (s2 : List Nat) (d2 : Nat)
    (h : addChunk orig v f scale unit s d = .next s2 d2) : s2 = s := by
  unfold addChunk at h
  simp only at h
  split_ifs at h <;> cases h <;> rfl

theorem length_ne_iff_takeWhile (s : List Nat) :
    (s.length != (s.dropWhile isDigit).length) = !(s.takeWhile isDigit).isEmpty := by
  have hlen := length_takeWhile_add_dropWhile isDigit s
  cases ht : s.takeWhile isDigit with
  | nil => rw [ht] at hlen; simp at hlen; simp [hlen]
  | cons a l => rw [ht] at hlen; simp at hlen; simp; omega

theorem fractionPart_point (s1 : List Nat) :
    fractionPart (46 :: s1) = ((leadingFraction s1).1, (leadingFraction s1).2.1,
      s1.dropWhile isDigit, !(s1.takeWhile isDigit).isEmpty) := by
  have hfr := leadingFractionLoop_rest s1 0 (F64.ofNat 1) false
  simp only [fractionPart, leadingFraction, hfr, length_ne_iff_takeWhile]

theorem fractionPart_other (r : List Nat) (h : ∀ s1, r ≠ 46 :: s1) :
    fractionPart r = (0, F64.ofNat 1, r, false) := by
  unfold fractionPart
  split
  · rename_i s1; exact absurd rfl (h s1)
  · rfl

theorem dropNumber_point (s s1 : List Nat) (h : s.dropWhile isDigit = 46 :: s1) :
    dropNumber s = if s.takeWhile isDigit = [] ∧ s1.takeWhile isDigit = [] then none
      else some (s1.dropWhile isDigit) := by
  unfold dropNumber
  rw [h]

theorem dropNumber_other (s : List Nat) (h : ∀ s1, s.dropWhile isDigit ≠ 46 :: s1) :
    dropNumber s = if s.takeWhile isDigit = [] then none else some (s.dropWhile isDigit) := by
  unfold dropNumber
  split
  · rename_i s1 heq; exact absurd heq (h s1)
  · rfl

theorem parseChunk_next (orig : List Nat) (c : Nat) (s0 : List Nat) (d : Nat)
    (s2 : List Nat) (d2 : Nat) (h : parseChunk orig c s0 d = .next s2 d2) :
    ∃ s1, dropNumber (c :: s0) = some s1 ∧ dropUnit allUnits s1 = some s2 := by
  unfold parseChunk at h
  split at h
  · simp at h
  simp only at h
  split at h
  · simp at h
  rename_i v r hli
  have hr : r = (c :: s0).dropWhile isDigit := leadingIntLoop_rest _ _ _ _ hli
  subst hr
  rw [length_ne_iff_takeWhile] at h
  by_cases hp : ∃ s1, (c :: s0).dropWhile isDigit = 46 :: s1
  · obtain ⟨s1, hs1⟩ := hp
    rw [hs1, fractionPart_point] at h
    simp only at h
    split at h
    · simp at h
    rename_i hpp
    split at h
    · simp at h
    split at h
    · simp at h
    rename_i unit hunit
    have hmem := unitMap_some_mem _ _ hunit
    have hs2 := addChunk_next _ _ _ _ _ _ _ _ _ h
    refine ⟨s1.dropWhile isDigit, ?_, ?_⟩
    · rw [dropNumber_point _ _ hs1, if_neg]
      intro ⟨h1, h2⟩
      apply hpp
      simp [h1, h2]
    · unfold dropUnit
      rw [if_pos hmem, hs2]
  · have hp' : ∀ s1, (c :: s0).dropWhile isDigit ≠ 46 :: s1 := fun s1 hs1 => hp ⟨s1, hs1⟩
    rw [fractionPart_other _ hp'] at h
    simp only at h
    split at h
    · simp at h
    rename_i hpp
    split at h
    · simp at h
    split at h
    · simp at h
    rename_i unit hunit
    have hmem := unitMap_some_mem _ _ hunit
    have hs2 := addChunk_next _ _ _ _ _ _ _ _ _ h
    refine ⟨(c :: s0).dropWhile isDigit, ?_, ?_⟩
    · rw [dropNumber_other _ hp', if_neg]
      intro h1
      apply hpp
      simp [h1]
    · unfold dropUnit
      rw [if_pos hmem, hs2]

theorem dropNumber_length (s s1 : List Nat) (h : dropNumber s = some s1) :
    s1.length < s.length := by
  have hlen := length_takeWhile_add_dropWhile isDigit s
  by_cases hp : ∃ r, s.dropWhile isDigit = 46 :: r
  · obtain ⟨r, hr⟩ := hp
    rw [dropNumber_point _ _ hr] at h
    split at h
    · simp at h
    · simp only [Option.some.injEq] at h
      have hlen2 := length_takeWhile_add_dropWhile isDigit r
      rw [hr] at hlen
      simp only [List.length_cons] at hlen
      rw [← h]
      omega
  · have hp' : ∀ r, s.dropWhile isDigit ≠ 46 :: r := fun r hr => hp ⟨r, hr⟩
    rw [dropNumber_other _ hp'] at h
    split at h
    · simp at h
    · rename_i hne
      simp only [Option.some.injEq] at h
      have : 0 < (s.takeWhile isDigit).length := List.length_pos.mpr hne
      rw [← h]
      omega

theorem dropUnit_length (units : List (List Nat)) (s s2 : List Nat)
    (h : dropUnit units s = some s2) : s2.length ≤ s.length := by
  unfold dropUnit at h
  split at h
  · simp only [Option.some.injEq] at h
    have := length_takeWhile_add_dropWhile (fun c => !isNumByte c) s
    rw [← h]
    omega
  · simp at h

theorem parseChunk_length (orig : List Nat) (c : Nat) (s0 : List Nat) (d : Nat)
    (s2 : List Nat) (d2 : Nat) (h : parseChunk orig c s0 d = .next s2 d2) :
    s2.length < (c :: s0).length := by
  obtain ⟨s1, h1, h2⟩ := parseChunk_next _ _ _ _ _ _ h
  have := dropNumber_length _ _ h1
  have := dropUnit_length _ _ _ h2
  omega

theorem parseLoop_nil (orig : List Nat) (fuel d : Nat) :
    parseLoop orig fuel [] d = some (.ok d) := by
  cases fuel <;> rfl

/-- With fuel at least the length of the text the loop of `time.ParseDuration`
ends: the fuel is not exhausted. -/
theorem parseLoop_total (orig : List Nat) : ∀ (fuel : Nat) (s : List Nat) (d : Nat),
    s.length ≤ fuel → ∃ r, parseLoop orig fuel s d = some r := by
  intro fuel
  induction fuel with
  | zero =>
    intro s d h
    have : s = [] := List.length_eq_zero.mp (by omega)
    subst this
    exact ⟨_, rfl⟩
  | succ fuel ih =>
    intro s d h
    cases s with
    | nil => exact ⟨_, rfl⟩
    | cons c s0 =>
      rw [parseLoop]
      cases hc : parseChunk orig c s0 d with
      | fail err => exact ⟨_, rfl⟩
      | next s2 d2 =>
        have := parseChunk_length _ _ _ _ _ _ hc
        exact ih s2 d2 (by omega)

/-- More fuel than the length of the text does not change the result. -/
theorem parseLoop_fuel (orig : List Nat) : ∀ (fuel1 fuel2 : Nat) (s : List Nat) (d : Nat),
    s.length ≤ fuel1 → s.length ≤ fuel2 →
    parseLoop orig fuel1 s d = parseLoop orig fuel2 s d := by
  intro fuel1
  induction fuel1 with
  | zero =>
    intro fuel2 s d h1 _
    have : s = [] := List.length_eq_zero.mp (by omega)
    subst this
    rw [parseLoop_nil, parseLoop_nil]
  | succ fuel1 ih =>
    intro fuel2 s d h1 h2
    cases s with
    | nil => rw [parseLoop_nil, parseLoop_nil]
    | cons c s0 =>
      cases fuel2 with
      | zero => simp at h2
      | succ fuel2 =>
        rw [parseLoop, parseLoop]
        cases hc : parseChunk orig c s0 d with
        | fail err => rfl
        | next s2 d2 =>
          have := parseChunk_length _ _ _ _ _ _ hc
          simp only [List.length_cons] at h1 h2 this
          exact ih fuel2 s2 d2 (by omega) (by omega)

/-- The loop of `time.ParseDuration`, run as `ParseDuration` runs it, returns:
the fuel is not exhausted. -/
theorem parseLoop_returns (orig : List Nat) :
    ∃ r, parseLoop orig (dropSign orig).length (dropSign orig) 0 = some r :=
  parseLoop_total orig _ _ 0 (le_refl _)

theorem numberUnitSeq_mono (units : List (List Nat)) : ∀ (fuel fuel1 : Nat) (s : List Nat),
    fuel ≤ fuel1 → numberUnitSeq units fuel s = true → numberUnitSeq units fuel1 s = true := by
  intro fuel
  induction fuel with
  | zero => intro fuel1 s _ h; simp [numberUnitSeq] at h
  | succ fuel ih =>
    intro fuel1 s hle h
    cases fuel1 with
    | zero => omega
    | succ fuel1 =>
      rw [numberUnitSeq] at h ⊢
      split at h
      · simp at h
      · rename_i s1 hs1
        split at h
        · simp at h
        · rename_i s2 hs2
          simp only [Bool.or_eq_true, decide_eq_true_eq] at h ⊢
          rcases h with h | h
          · exact Or.inl h
          · exact Or.inr (ih fuel1 s2 (by omega) h)

theorem parseLoop_seq (orig : List Nat) : ∀ (fuel : Nat) (s : List Nat) (d d1 : Nat),
    s ≠ [] → parseLoop orig fuel s d = some (.ok d1) →
    numberUnitSeq allUnits fuel s = true := by
  intro fuel
  induction fuel with
  | zero =>
    intro s d d1 hs h
    cases s with
    | nil => exact absurd rfl hs
    | cons c s0 => simp [parseLoop] at h
  | succ fuel ih =>
    intro s d d1 hs h
    cases s with
    | nil => exact absurd rfl hs
    | cons c s0 =>
      rw [parseLoop] at h
      cases hc : parseChunk orig c s0 d with
      | fail err => rw [hc] at h; simp at h
      | next s2 d2 =>
        rw [hc] at h
        simp only at h
        obtain ⟨s1, h1, h2⟩ := parseChunk_next _ _ _ _ _ _ hc
        rw [numberUnitSeq, h1]
        simp only [h2, Bool.or_eq_true, decide_eq_true_eq]
        by_cases hs2 : s2 = []
        · exact Or.inl hs2
        · exact Or.inr (ih s2 d2 d1 hs2 h)

theorem dropSign_length (s : List Nat) : (dropSign s).length ≤ s.length := by
  unfold dropSign
  split
  · split <;> simp
  · simp

/-- Every text that `time.ParseDuration` accepts is the text `0` with an
optional sign or a signed sequence of numbers, each followed by a unit. -/
theorem ParseDuration_ok_wide (s : List Nat) (p : Int) (h : ParseDuration s = .ok p) :
    wideDuration s = true := by
  unfold ParseDuration at h
  simp only at h
  unfold wideDuration
  simp only [Bool.or_eq_true, decide_eq_true_eq]
  by_cases h0 : dropSign s = str "0"
  · exact Or.inl h0
  · right
    rw [if_neg h0] at h
    split at h
    · simp at h
    rename_i hne
    split at h
    · simp at h
    · simp at h
    · rename_i d hd
      exact numberUnitSeq_mono _ _ _ _ (dropSign_length s) (parseLoop_seq _ _ _ _ _ hne hd)

/-! ## Exact `float64` arithmetic on short decimal fractions -/
theorem log2Aux_le : ∀ (k n : Nat), 0 < n → 2 ^ log2Aux k n ≤ n := by
  intro k
  induction k with
  | zero => intro n h; simpa [log2Aux] using h
  | succ k ih =>
    intro n h
    rw [log2Aux]
    simp only [Nat.one_shiftLeft, Nat.shiftRight_eq_div_pow]
    split
    · rename_i hge
      have hpos : 0 < n / 2 ^ 2 ^ k := Nat.div_pos hge (by positivity)
      have := ih _ hpos
      calc 2 ^ (2 ^ k + log2Aux k (n / 2 ^ 2 ^ k))
          = 2 ^ 2 ^ k * 2 ^ log2Aux k (n / 2 ^ 2 ^ k) := by rw [pow_add]
        _ ≤ 2 ^ 2 ^ k * (n / 2 ^ 2 ^ k) := Nat.mul_le_mul_left _ this
        _ ≤ n := Nat.mul_div_le n _
    · exact ih n h

theorem pow2_mono (a b : Nat) (h : a ≤ b) : 2 ^ a ≤ 2 ^ b :=
  Nat.pow_le_pow_right (by decide) h

theorem pow2_pos (a : Nat) : 0 < 2 ^ a := Nat.pos_pow_of_pos _ (by decide)

set_option exponentiation.threshold 1100 in
theorem F64.den_eq : F64.den = 2 ^ 1074 := Nat.one_shiftLeft 1074

theorem F64.den_pos : 0 < F64.den := by rw [F64.den_eq]; exact pow2_pos 1074

theorem F64.le_den : 2 ^ 53 ≤ F64.den := by
  rw [F64.den_eq]; exact pow2_mono 53 1074 (by decide)

theorem F64.mul_den_lt (n : Nat) (hn : n < 2 ^ 53) : n * F64.den < 2 ^ (53 + 1074) := by
  rw [F64.den_eq, pow_add]
  exact Nat.mul_lt_mul_of_pos_right hn (pow2_pos 1074)

set_option exponentiation.threshold 2200 in
/-- A value with at most 53 significant bits is not changed by rounding. -/
theorem F64.round_exact (n q : Nat) (hq : 0 < q) (hn : n < 2 ^ 53) :
    F64.round (n * q) q = .fin (n * F64.den) := by
  unfold F64.round
  simp only [Nat.one_shiftLeft]
  have hfl : n * q * F64.den / q = n * F64.den := by
    rw [Nat.mul_right_comm, Nat.mul_div_cancel _ hq]
  rw [hfl]
  have hlt := F64.mul_den_lt n hn
  have hbig : n * F64.den < 2 ^ 2098 :=
    lt_of_lt_of_le hlt (pow2_mono (53 + 1074) 2098 (by decide))
  by_cases hsmall : n * F64.den < 2 ^ 53
  · -- only `n = 0`
    have hn0 : n = 0 := by
      by_contra h
      have h1 : F64.den ≤ n * F64.den := Nat.le_mul_of_pos_left _ (Nat.pos_of_ne_zero h)
      exact absurd (lt_of_le_of_lt (le_trans F64.le_den h1) hsmall) (lt_irrefl _)
    subst hn0
    rw [if_pos hsmall]
    simp only [Nat.mul_one, Nat.zero_mul, Nat.zero_div, Nat.zero_mod, Nat.mul_zero]
    have hno : ¬ (0 > q ∨ 0 = q ∧ 0 % 2 = 1) := by omega
    rw [if_neg hno, if_neg (not_le.mpr (pow2_pos 2098))]
  · rw [if_neg hsmall]
    have hpos : 0 < n * F64.den :=
      lt_of_lt_of_le (pow2_pos 53) (not_lt.mp hsmall)
    have hlog := log2Aux_le 12 _ hpos
    generalize log2Aux 12 (n * F64.den) = L at hlog ⊢
    have hL1 : L < 53 + 1074 := by
      by_contra h
      have : 2 ^ (53 + 1074) ≤ 2 ^ L := pow2_mono _ _ (not_lt.mp h)
      exact absurd (lt_of_le_of_lt (le_trans this hlog) hlt) (lt_irrefl _)
    have hdvd : 2 ^ (L - 52) ∣ F64.den := by
      rw [F64.den_eq]; exact pow_dvd_pow 2 (by omega)
    obtain ⟨e, he⟩ := hdvd
    have hupos : 0 < 2 ^ (L - 52) := pow2_pos _
    have ht : n * q * F64.den = (n * e) * (q * 2 ^ (L - 52)) := by
      rw [he]; ring
    have hd : 0 < q * 2 ^ (L - 52) := Nat.mul_pos hq hupos
    rw [ht, Nat.mul_div_cancel _ hd, Nat.mul_mod_left]
    generalize q * 2 ^ (L - 52) = dd at hd
    have hno : ¬ (2 * 0 > dd ∨ 2 * 0 = dd ∧ n * e % 2 = 1) := by omega
    rw [if_neg hno]
    have hval : n * e * 2 ^ (L - 52) = n * F64.den := by rw [he]; ring
    rw [hval, if_neg (not_le.mpr hbig)]

theorem F64.ofNat_exact (n : Nat) (hn : n < 2 ^ 53) : F64.ofNat n = .fin (n * F64.den) := by
  have := F64.round_exact n 1 (by decide) hn
  rw [Nat.mul_one] at this
  exact this

theorem F64.mul_exact (a b : Nat) (h : a * b < 2 ^ 53) :
    F64.mul (.fin (a * F64.den)) (.fin (b * F64.den)) = .fin (a * b * F64.den) := by
  have := F64.round_exact (a * b) (F64.den * F64.den) (Nat.mul_pos F64.den_pos F64.den_pos) h
  rw [← this]
  show F64.round (a * F64.den * (b * F64.den)) (F64.den * F64.den) = _
  rw [show a * F64.den * (b * F64.den) = a * b * (F64.den * F64.den) by ring]

theorem F64.div_exact (a b : Nat) (hb : 0 < b) (h : a < 2 ^ 53) :
    F64.div (.fin (a * b * F64.den)) (.fin (b * F64.den)) = .fin (a * F64.den) := by
  have := F64.round_exact a (b * F64.den) (Nat.mul_pos hb F64.den_pos) h
  rw [← this]
  show (if b * F64.den = 0 then F64.inf else F64.round (a * b * F64.den) (b * F64.den)) = _
  rw [if_neg (Nat.pos_iff_ne_zero.mp (Nat.mul_pos hb F64.den_pos)), Nat.mul_assoc]

/-- The fraction `f / 10 ^ k` of the unit `10 ^ prec`, `k ≤ prec ≤ 15`, is
computed exactly. -/
theorem fracNs_exact (f k prec : Nat) (hk : k ≤ prec) (hp : prec ≤ 15) (hf : f < 10 ^ k) :
    fracNs f (10 ^ prec) (.fin (10 ^ k * F64.den)) = f * 10 ^ (prec - k) := by
  have h15 : (10 : Nat) ^ 15 < 2 ^ 53 := by norm_num
  have hkp : (10 : Nat) ^ k ≤ 10 ^ 15 := Nat.pow_le_pow_right (by norm_num) (by omega)
  have hpp : (10 : Nat) ^ prec ≤ 10 ^ 15 := Nat.pow_le_pow_right (by norm_num) hp
  have hsplit : (10 : Nat) ^ prec = 10 ^ (prec - k) * 10 ^ k := by
    rw [← pow_add]; congr 1; omega
  have hk0 : 0 < (10 : Nat) ^ k := by positivity
  have hq : (10 : Nat) ^ (prec - k) ≤ 10 ^ prec := Nat.pow_le_pow_right (by norm_num) (by omega)
  have hprod : f * 10 ^ (prec - k) < 10 ^ prec := by
    rw [hsplit, Nat.mul_comm]
    exact Nat.mul_lt_mul_of_pos_left hf (by positivity)
  unfold fracNs
  rw [F64.ofNat_exact f (by omega), F64.ofNat_exact (10 ^ prec) (by omega)]
  have hdiv : F64.div (.fin (10 ^ prec * F64.den)) (.fin (10 ^ k * F64.den))
      = .fin (10 ^ (prec - k) * F64.den) := by
    have := F64.div_exact (10 ^ (prec - k)) (10 ^ k) hk0 (by omega)
    rw [← hsplit] at this
    exact this
  rw [hdiv, F64.mul_exact _ _ (by omega)]
  show (f * 10 ^ (prec - k) * F64.den / F64.den) % 2 ^ 64 = _
  rw [Nat.mul_div_cancel _ F64.den_pos]
  exact Nat.mod_eq_of_lt (by
    have : (10 : Nat) ^ 15 < 2 ^ 64 := by norm_num
    omega)

/-! ### `leadingInt` reads back what `fmtInt` writes -/

theorem isDigit_add48 (x : Nat) (h : x < 10) : isDigit (x + 48) = true := by
  simp only [isDigit, Bool.and_eq_true, decide_eq_true_eq]; omega

theorem leadingIntLoop_digit (x dg : Nat) (buf : List Nat) (hd : dg < 10)
    (hx : x * 10 + dg ≤ 2 ^ 63) :
    leadingIntLoop ((dg + 48) :: buf) x = leadingIntLoop buf (x * 10 + dg) := by
  rw [leadingIntLoop]
  have h1 : ¬ (dg + 48 < 48 ∨ dg + 48 > 57) := by omega
  have h2 : ¬ x > 2 ^ 63 / 10 := by omega
  have h3 : (x * 10 + (dg + 48) - 48) % 2 ^ 64 = x * 10 + dg := by
    rw [show x * 10 + (dg + 48) - 48 = x * 10 + dg by omega]
    exact Nat.mod_eq_of_lt (by omega)
  rw [if_neg h1, if_neg h2]
  simp only [h3]
  rw [if_neg (by omega)]

/-- The fuel of `fmtInt` is never exhausted: any fuel of at least `v` gives the
same text. -/
theorem fmtIntLoop_fuel : ∀ (fuel1 fuel2 : Nat) (buf : List Nat) (v : Nat),
    v ≤ fuel1 → v ≤ fuel2 → fmtIntLoop fuel1 buf v = fmtIntLoop fuel2 buf v := by
  intro fuel1
  induction fuel1 with
  | zero =>
    intro fuel2 buf v h1 _
    have : v = 0 := by omega
    subst this
    cases fuel2 <;> rfl
  | succ fuel1 ih =>
    intro fuel2 buf v h1 h2
    cases fuel2 with
    | zero =>
      have : v = 0 := by omega
      subst this
      rfl
    | succ fuel2 =>
      rw [fmtIntLoop, fmtIntLoop]
      split
      · exact ih fuel2 _ _ (by omega) (by omega)
      · rfl

/-- The text that `fmtInt` writes is read back by `leadingInt`. -/
theorem leadingIntLoop_fmtIntLoop : ∀ (fuel : Nat) (buf : List Nat) (v : Nat),
    v ≤ fuel → v ≤ 2 ^ 63 →
    leadingIntLoop (fmtIntLoop fuel buf v) 0 = leadingIntLoop buf v := by
  intro fuel
  induction fuel with
  | zero =>
    intro buf v h _
    have : v = 0 := by omega
    subst this
    rfl
  | succ fuel ih =>
    intro buf v h hv
    rw [fmtIntLoop]
    by_cases hpos : v > 0
    · rw [if_pos hpos]
      rw [ih _ _ (by omega) (by omega)]
      have := leadingIntLoop_digit (v / 10) (v % 10) buf (Nat.mod_lt _ (by decide)) (by omega)
      rw [this]
      congr 1
      omega
    · rw [if_neg hpos]
      have : v = 0 := by omega
      subst this
      rfl

theorem leadingInt_fmtInt (buf : List Nat) (v : Nat) (hv : v ≤ 2 ^ 63) :
    leadingInt (fmtInt buf v) = leadingIntLoop buf v := by
  unfold leadingInt fmtInt
  split
  · rename_i h0
    subst h0
    exact leadingIntLoop_digit 0 0 buf (by decide) (by decide)
  · exact leadingIntLoop_fmtIntLoop v buf v (le_refl _) hv

theorem leadingIntLoop_stop (buf : List Nat) (v : Nat) (h : NoDigitHead buf) :
    leadingIntLoop buf v = some (v, buf) := by
  cases buf with
  | nil => rfl
  | cons c tl =>
    have hc : isDigit c = false := h c (by simp)
    rw [leadingIntLoop, if_pos]
    simp only [isDigit, Bool.and_eq_false_imp, decide_eq_true_eq, decide_eq_false_iff_not] at hc
    omega

theorem fmtIntLoop_head : ∀ (fuel : Nat) (buf : List Nat) (v : Nat),
    v ≤ fuel → 0 < v → ∃ c tl, fmtIntLoop fuel buf v = c :: tl ∧ isDigit c = true := by
  intro fuel
  induction fuel with
  | zero => intro buf v h hv; omega
  | succ fuel ih =>
    intro buf v h hv
    rw [fmtIntLoop, if_pos hv]
    by_cases h10 : 0 < v / 10
    · exact ih _ _ (by omega) h10
    · have h0 : v / 10 = 0 := by omega
      rw [h0]
      refine ⟨v % 10 + 48, buf, ?_, isDigit_add48 _ (Nat.mod_lt _ (by decide))⟩
      cases fuel <;> rfl

/-- The text that `fmtInt` writes begins with a digit. -/
theorem fmtInt_head (buf : List Nat) (v : Nat) :
    ∃ c tl, fmtInt buf v = c :: tl ∧ isDigit c = true := by
  unfold fmtInt
  split
  · exact ⟨48, buf, rfl, by decide⟩
  · exact fmtIntLoop_head v buf v (le_refl _) (by omega)

/-! ### `leadingFraction` reads back what `fmtFrac` writes -/

theorem fmtFracLoop_value : ∀ (n : Nat) (buf : List Nat) (v : Nat) (pr : Bool),
    (fmtFracLoop n buf v pr).2.1 = v / 10 ^ n := by
  intro n
  induction n with
  | zero => intro buf v pr; simp [fmtFracLoop]
  | succ n ih =>
    intro buf v pr
    rw [fmtFracLoop]
    simp only [ih]
    rw [Nat.div_div_eq_div_mul, pow_succ, Nat.mul_comm]

theorem mod_pow_succ (v n : Nat) :
    v % 10 ^ (n + 1) = v / 10 % 10 ^ n * 10 + v % 10 := by
  rw [pow_succ, Nat.mul_comm (10 ^ n) 10, Nat.mod_mul]
  ring

theorem fmtFracLoop_true_flag : ∀ (n : Nat) (buf : List Nat) (v : Nat),
    (fmtFracLoop n buf v true).2.2 = true := by
  intro n
  induction n with
  | zero => intro buf v; rfl
  | succ n ih => intro buf v; rw [fmtFracLoop]; simp only [Bool.true_or]; exact ih _ _

theorem leadingFractionLoop_digit (x dg k : Nat) (buf : List Nat) (hd : dg < 10)
    (hk : k < 15) (hx : x < 10 ^ k) :
    leadingFractionLoop ((dg + 48) :: buf) x (.fin (10 ^ k * F64.den)) false
      = leadingFractionLoop buf (x * 10 + dg) (.fin (10 ^ (k + 1) * F64.den)) false := by
  have hkp : (10 : Nat) ^ k ≤ 10 ^ 14 := Nat.pow_le_pow_right (by norm_num) (by omega)
  have hkq : (10 : Nat) ^ (k + 1) ≤ 10 ^ 15 := Nat.pow_le_pow_right (by norm_num) (by omega)
  rw [leadingFractionLoop]
  have h1 : ¬ (dg + 48 < 48 ∨ dg + 48 > 57) := by omega
  have h2 : ¬ x > (2 ^ 63 - 1) / 10 := by
    have : (10 : Nat) ^ 14 ≤ (2 ^ 63 - 1) / 10 := by norm_num
    omega
  have h3 : (x * 10 + (dg + 48) - 48) % 2 ^ 64 = x * 10 + dg := by
    rw [show x * 10 + (dg + 48) - 48 = x * 10 + dg by omega]
    exact Nat.mod_eq_of_lt (by
      have : (10 : Nat) ^ 14 * 10 + 10 < 2 ^ 64 := by norm_num
      omega)
  rw [if_neg h1, if_neg h2]
  simp only [Bool.false_eq_true, if_false, h3]
  rw [if_neg (by
    have : (10 : Nat) ^ 14 * 10 + 10 ≤ 2 ^ 63 := by norm_num
    omega)]
  have hmul : F64.mul (.fin (10 ^ k * F64.den)) (F64.ofNat 10) = .fin (10 ^ (k + 1) * F64.den) := by
    rw [F64.ofNat_exact 10 (by norm_num)]
    have := F64.mul_exact (10 ^ k) 10 (by
      have : (10 : Nat) ^ 15 < 2 ^ 53 := by norm_num
      rw [pow_succ] at hkq
      omega)
    rw [this, pow_succ]
  rw [hmul]

/-- With the flag set, `fmtFracLoop` writes `n` digits, which are read back as
the number `v % 10 ^ n` with the scale `10 ^ n`. -/
theorem leadingFractionLoop_fmtFracLoop_true : ∀ (n : Nat) (buf : List Nat) (v : Nat),
    n ≤ 15 →
    leadingFractionLoop (fmtFracLoop n buf v true).1 0 (.fin (10 ^ 0 * F64.den)) false
      = leadingFractionLoop buf (v % 10 ^ n) (.fin (10 ^ n * F64.den)) false := by
  intro n
  induction n with
  | zero => intro buf v _; simp [fmtFracLoop, Nat.mod_one]
  | succ n ih =>
    intro buf v hn
    rw [fmtFracLoop]
    simp only [Bool.true_or, if_true]
    rw [ih _ _ (by omega)]
    have hlt : v / 10 % 10 ^ n < 10 ^ n := Nat.mod_lt _ (by positivity)
    rw [leadingFractionLoop_digit _ _ n buf (Nat.mod_lt _ (by decide)) (by omega) hlt]
    congr 1
    exact (mod_pow_succ v n).symm

theorem fmtFracLoop_true_head : ∀ (n : Nat) (buf : List Nat) (v : Nat) (c : Nat),
    isDigit c = true →
    ∃ c1 tl, (fmtFracLoop n (c :: buf) v true).1 = c1 :: tl ∧ isDigit c1 = true := by
  intro n
  induction n with
  | zero => intro buf v c hc; exact ⟨c, buf, rfl, hc⟩
  | succ n ih =>
    intro buf v c _
    rw [fmtFracLoop]
    simp only [Bool.true_or, if_true]
    exact ih _ _ _ (isDigit_add48 _ (Nat.mod_lt _ (by decide)))

/-- What `fmtFracLoop` writes, started with the flag unset: nothing when the
fraction is zero; otherwise digits that are read back as a number `f` with a
scale `10 ^ k` such that `f / 10 ^ k` is the fraction. -/
theorem fmtFracLoop_false : ∀ (n : Nat) (buf : List Nat) (v : Nat), n ≤ 15 →
    ((fmtFracLoop n buf v false).2.2 = false ∧ (fmtFracLoop n buf v false).1 = buf ∧
      v % 10 ^ n = 0) ∨
    ((fmtFracLoop n buf v false).2.2 = true ∧
      ∃ k f, k ≤ n ∧ 0 < f ∧ f < 10 ^ k ∧ f * 10 ^ (n - k) = v % 10 ^ n ∧
        leadingFractionLoop (fmtFracLoop n buf v false).1 0 (.fin (10 ^ 0 * F64.den)) false
          = leadingFractionLoop buf f (.fin (10 ^ k * F64.den)) false ∧
        ∃ c tl, (fmtFracLoop n buf v false).1 = c :: tl ∧ isDigit c = true) := by
  intro n
  induction n with
  | zero => intro buf v _; left; simp [fmtFracLoop, Nat.mod_one]
  | succ n ih =>
    intro buf v hn
    rw [fmtFracLoop]
    by_cases hd : v % 10 = 0
    · have hpr : (false || v % 10 != 0) = false := by simp [hd]
      simp only [hpr, Bool.false_eq_true, if_false]
      rcases ih buf (v / 10) (by omega) with ⟨h1, h2, h3⟩ | ⟨h1, k, f, hk, hf0, hf, hfe, hl, hh⟩
      · left
        refine ⟨h1, h2, ?_⟩
        rw [mod_pow_succ, h3, hd]
      · right
        refine ⟨h1, k, f, by omega, hf0, hf, ?_, hl, hh⟩
        rw [mod_pow_succ, ← hfe, hd, show n + 1 - k = (n - k) + 1 by omega, pow_succ]
        ring
    · have hpr : (false || v % 10 != 0) = true := by simp [hd]
      simp only [hpr, if_true]
      right
      refine ⟨fmtFracLoop_true_flag _ _ _, n + 1, v % 10 ^ (n + 1), le_refl _, ?_,
        Nat.mod_lt _ (by positivity), by simp, ?_, ?_⟩
      · rw [mod_pow_succ]; omega
      · rw [leadingFractionLoop_fmtFracLoop_true _ _ _ (by omega)]
        have hlt : v / 10 % 10 ^ n < 10 ^ n := Nat.mod_lt _ (by positivity)
        rw [leadingFractionLoop_digit _ _ n buf (Nat.mod_lt _ (by decide)) (by omega) hlt]
        rw [mod_pow_succ]
      · exact fmtFracLoop_true_head _ _ _ _ (isDigit_add48 _ (Nat.mod_lt _ (by decide)))

/-! ### One iteration of the parser on one formatted chunk -/

theorem isNumByte_of_isDigit (c : Nat) (h : isDigit c = true) : isNumByte c = true := by
  simp only [isDigit, Bool.and_eq_true, decide_eq_true_eq] at h
  simp only [isNumByte, Bool.or_eq_true, beq_iff_eq, Bool.and_eq_true, decide_eq_true_eq]
  omega

theorem takeWhile_unit (u rest : List Nat) (hu : IsUnitName u) (hr : StartsNum rest) :
    (u ++ rest).takeWhile (fun c => !isNumByte c) = u ∧
    (u ++ rest).dropWhile (fun c => !isNumByte c) = rest := by
  have hrest : rest.takeWhile (fun c => !isNumByte c) = [] ∧
      rest.dropWhile (fun c => !isNumByte c) = rest := by
    cases rest with
    | nil => exact ⟨rfl, rfl⟩
    | cons c tl =>
      have hc : isNumByte c = true := hr c (by simp)
      simp [List.takeWhile, List.dropWhile, hc]
  obtain ⟨-, hall⟩ := hu
  induction u with
  | nil => simpa using hrest
  | cons c tl ih =>
    have hc : isNumByte c = false := hall c (by simp)
    have := ih (fun x hx => hall x (by simp [hx]))
    simp [List.takeWhile, List.dropWhile, hc, this]

theorem unit_head (u rest : List Nat) (hu : IsUnitName u) :
    NoDigitHead (u ++ rest) ∧ ∀ s1, u ++ rest ≠ 46 :: s1 := by
  obtain ⟨hne, hall⟩ := hu
  cases u with
  | nil => exact absurd rfl hne
  | cons c tl =>
    have hc : isNumByte c = false := hall c (by simp)
    simp only [isNumByte, Bool.or_eq_false_iff, beq_eq_false_iff_ne, ne_eq,
      Bool.and_eq_false_imp, decide_eq_true_eq, decide_eq_false_iff_not] at hc
    constructor
    · intro x hx
      simp only [List.cons_append, List.head?_cons, Option.mem_def, Option.some.injEq] at hx
      subst hx
      simp only [isDigit, Bool.and_eq_false_imp, decide_eq_true_eq, decide_eq_false_iff_not]
      exact hc.2
    · intro s1 h
      simp only [List.cons_append, List.cons.injEq] at h
      exact hc.1 h.1

theorem parseChunk_eval (orig : List Nat) (c : Nat) (tl : List Nat) (d a : Nat) (fb : List Nat)
    (hc : isDigit c = true) (hli : leadingInt (c :: tl) = some (a, fb)) :
    parseChunk orig c tl d =
      if ((fractionPart fb).2.2.1.takeWhile fun c => !isNumByte c).length = 0 then
        .fail (errMissingUnit orig)
      else
        match unitMap ((fractionPart fb).2.2.1.takeWhile fun c => !isNumByte c) with
        | none => .fail (errUnknownUnit
            ((fractionPart fb).2.2.1.takeWhile fun c => !isNumByte c) orig)
        | some unit => addChunk orig a (fractionPart fb).1 (fractionPart fb).2.1 unit
            ((fractionPart fb).2.2.1.dropWhile fun c => !isNumByte c) d := by
  have hfb : fb = (c :: tl).dropWhile isDigit := leadingIntLoop_rest _ _ _ _ hli
  have hpre : ((c :: tl).length != fb.length) = true := by
    rw [hfb, length_ne_iff_takeWhile]
    simp [List.takeWhile, hc]
  unfold parseChunk
  rw [if_neg (by simp [isNumByte_of_isDigit c hc])]
  simp only [hli, hpre, Bool.not_true, Bool.false_and, Bool.false_eq_true, if_false]

theorem addChunk_int (orig : List Nat) (a : Nat) (scale : F64) (unit : Nat) (rest : List Nat)
    (d : Nat) (ha : a ≤ 2 ^ 63 / unit) (hd : d + a * unit ≤ 2 ^ 63) :
    addChunk orig a 0 scale unit rest d = .next rest (d + a * unit) := by
  unfold addChunk
  rw [if_neg (by omega)]
  have h1 : a * unit % 2 ^ 64 = a * unit := Nat.mod_eq_of_lt (by omega)
  have h2 : (d + a * unit) % 2 ^ 64 = d + a * unit := Nat.mod_eq_of_lt (by omega)
  simp only [Nat.lt_irrefl, if_false, false_and, h1, h2, gt_iff_lt]
  rw [if_neg (by omega)]

theorem addChunk_frac (orig : List Nat) (a f k prec : Nat) (rest : List Nat)
    (d : Nat) (hk : k ≤ prec) (hp : prec ≤ 15) (hf0 : 0 < f) (hf : f < 10 ^ k)
    (ha : a ≤ 2 ^ 63 / 10 ^ prec)
    (hd : d + a * 10 ^ prec + f * 10 ^ (prec - k) ≤ 2 ^ 63) :
    addChunk orig a f (.fin (10 ^ k * F64.den)) (10 ^ prec) rest d
      = .next rest (d + a * 10 ^ prec + f * 10 ^ (prec - k)) := by
  unfold addChunk
  rw [if_neg (by omega), fracNs_exact f k prec hk hp hf]
  generalize f * 10 ^ (prec - k) = b at hd ⊢
  generalize 10 ^ prec = U at hd ha ⊢
  have h1 : a * U % 2 ^ 64 = a * U := Nat.mod_eq_of_lt (by omega)
  have h2 : (a * U + b) % 2 ^ 64 = a * U + b := Nat.mod_eq_of_lt (by omega)
  have h3 : (d + (a * U + b)) % 2 ^ 64 = d + a * U + b := by
    rw [← Nat.add_assoc]; exact Nat.mod_eq_of_lt (by omega)
  simp only [hf0, if_true, true_and, h1, h2, h3, gt_iff_lt]
  rw [if_neg (by omega), if_neg (by omega)]

theorem parseLoop_intChunk (orig : List Nat) (fuel a unit : Nat) (u rest : List Nat) (d : Nat)
    (hu : IsUnitName u) (hmap : unitMap u = some unit) (hrest : StartsNum rest)
    (ha : a ≤ 2 ^ 63 / unit) (hd : d + a * unit ≤ 2 ^ 63) :
    parseLoop orig (fuel + 1) (fmtInt (u ++ rest) a) d = parseLoop orig fuel rest (d + a * unit) := by
  obtain ⟨c, tl, hc, hdig⟩ := fmtInt_head (u ++ rest) a
  obtain ⟨hnd, h46⟩ := unit_head u rest hu
  obtain ⟨htw, hdw⟩ := takeWhile_unit u rest hu hrest
  have ha63 : a ≤ 2 ^ 63 := le_trans ha (Nat.div_le_self _ _)
  have hli : leadingInt (c :: tl) = some (a, u ++ rest) := by
    rw [← hc, leadingInt_fmtInt _ _ ha63, leadingIntLoop_stop _ _ hnd]
  rw [hc, parseLoop, parseChunk_eval orig c tl d a _ hdig hli, fractionPart_other _ h46]
  simp only [htw, hdw]
  rw [if_neg (by simpa using hu.1), hmap]
  simp only
  rw [addChunk_int orig a _ unit rest d ha hd]

theorem leadingFractionLoop_stop (buf : List Nat) (x : Nat) (sc : F64) (h : NoDigitHead buf) :
    leadingFractionLoop buf x sc false = (x, sc, buf) := by
  cases buf with
  | nil => rfl
  | cons c tl =>
    have hc : isDigit c = false := h c (by simp)
    rw [leadingFractionLoop, if_pos]
    simp only [isDigit, Bool.and_eq_false_imp, decide_eq_true_eq, decide_eq_false_iff_not] at hc
    omega

theorem point_head (s : List Nat) : NoDigitHead (46 :: s) := by
  intro x hx
  simp only [List.head?_cons, Option.mem_def, Option.some.injEq] at hx
  subst hx
  decide

theorem parseLoop_fracChunk (orig : List Nat) (fuel a w prec : Nat) (u rest : List Nat) (d : Nat)
    (hu : IsUnitName u) (hmap : unitMap u = some (10 ^ prec)) (hrest : StartsNum rest)
    (hp : prec ≤ 15) (ha : a ≤ 2 ^ 63 / 10 ^ prec)
    (hd : d + a * 10 ^ prec + w % 10 ^ prec ≤ 2 ^ 63) :
    parseLoop orig (fuel + 1) (fmtInt (fmtFrac (u ++ rest) w prec).1 a) d
      = parseLoop orig fuel rest (d + a * 10 ^ prec + w % 10 ^ prec) := by
  obtain ⟨hnd, h46⟩ := unit_head u rest hu
  obtain ⟨htw, hdw⟩ := takeWhile_unit u rest hu hrest
  have ha63 : a ≤ 2 ^ 63 := le_trans ha (Nat.div_le_self _ _)
  rcases fmtFracLoop_false prec (u ++ rest) w hp with
    ⟨h1, h2, h3⟩ | ⟨h1, k, f, hk, hf0, hf, hfe, hl, -⟩
  · -- no fraction is written
    have hfb : (fmtFrac (u ++ rest) w prec).1 = u ++ rest := by
      simp only [fmtFrac, h1, h2, Bool.false_eq_true, if_false]
    rw [hfb, h3, Nat.add_zero]
    exact parseLoop_intChunk orig fuel a (10 ^ prec) u rest d hu hmap hrest ha (by omega)
  · have hfb : (fmtFrac (u ++ rest) w prec).1 = 46 :: (fmtFracLoop prec (u ++ rest) w false).1 := by
      simp only [fmtFrac, h1, if_true]
    obtain ⟨c, tl, hc, hdig⟩ := fmtInt_head (fmtFrac (u ++ rest) w prec).1 a
    have hli : leadingInt (c :: tl) = some (a, 46 :: (fmtFracLoop prec (u ++ rest) w false).1) := by
      rw [← hc, leadingInt_fmtInt _ _ ha63, hfb, leadingIntLoop_stop _ _ (point_head _)]
    have hone : F64.ofNat 1 = .fin (10 ^ 0 * F64.den) := by
      rw [F64.ofNat_exact 1 (by norm_num), pow_zero]
    have hlf : leadingFraction (fmtFracLoop prec (u ++ rest) w false).1
        = (f, .fin (10 ^ k * F64.den), u ++ rest) := by
      rw [leadingFraction, hone, hl, leadingFractionLoop_stop _ _ _ hnd]
    have hfp : fractionPart (46 :: (fmtFracLoop prec (u ++ rest) w false).1)
        = (f, .fin (10 ^ k * F64.den), u ++ rest,
            (fmtFracLoop prec (u ++ rest) w false).1.length != (u ++ rest).length) := by
      simp only [fractionPart, hlf]
    rw [hc, parseLoop, parseChunk_eval orig c tl d a _ hdig hli, hfp]
    simp only [htw, hdw]
    rw [if_neg (by simpa using hu.1), hmap]
    simp only
    rw [← hfe] at hd ⊢
    rw [addChunk_frac orig a f k prec rest d hk hp hf0 hf ha hd]

/-! ### The text of a duration is parsed back to the duration -/

theorem absU (d : Int) (h : Int64 d) :
    (if decide (d < 0) = true then (2 ^ 64 - toUint64 d) % 2 ^ 64 else toUint64 d) = d.natAbs := by
  unfold Int64 at h
  unfold toUint64
  by_cases hd : d < 0
  · simp only [hd, decide_True, if_true]
    omega
  · simp only [hd, decide_False, Bool.false_eq_true, if_false]
    omega

theorem String_eq (d : Int) (h : Int64 d) :
    Duration.String d = if d < 0 then 45 :: fmtAbs d.natAbs else fmtAbs d.natAbs := by
  unfold Duration.String
  simp only [absU d h]
  unfold fmtAbs
  by_cases hd : d < 0
  · have h0 : d.natAbs ≠ 0 := by omega
    simp only [hd, decide_True, if_true, h0, if_false]
    split <;> rfl
  · simp only [hd, decide_False, Bool.false_eq_true, if_false]

theorem startsNum_nil : StartsNum [] := by
  intro c hc; simp at hc

theorem startsNum_fmtInt (buf : List Nat) (v : Nat) : StartsNum (fmtInt buf v) := by
  obtain ⟨c, tl, hc, hdig⟩ := fmtInt_head buf v
  intro x hx
  rw [hc] at hx
  simp only [List.head?_cons, Option.mem_def, Option.some.injEq] at hx
  subst hx
  exact isNumByte_of_isDigit _ hdig

theorem isUnitName_ns : IsUnitName [110, 115] := by
  refine ⟨by simp, ?_⟩; intro c hc; simp at hc; rcases hc with h | h <;> subst h <;> decide

theorem isUnitName_us : IsUnitName [0xC2, 0xB5, 115] := by
  refine ⟨by simp, ?_⟩; intro c hc; simp at hc; rcases hc with h | h | h <;> subst h <;> decide

theorem isUnitName_ms : IsUnitName [109, 115] := by
  refine ⟨by simp, ?_⟩; intro c hc; simp at hc; rcases hc with h | h <;> subst h <;> decide

theorem isUnitName_s : IsUnitName [115] := by
  refine ⟨by simp, ?_⟩; intro c hc; simp at hc; subst hc; decide

theorem isUnitName_m : IsUnitName [109] := by
  refine ⟨by simp, ?_⟩; intro c hc; simp at hc; subst hc; decide

theorem isUnitName_h : IsUnitName [104] := by
  refine ⟨by simp, ?_⟩; intro c hc; simp at hc; subst hc; decide

/-- A duration below one second: one chunk with the unit `10 ^ prec`. -/
theorem parseLoop_small (orig : List Nat) (fuel w prec : Nat) (u : List Nat)
    (hu : IsUnitName u) (hmap : unitMap u = some (10 ^ prec)) (hp : prec ≤ 15)
    (hw : w ≤ 2 ^ 63) :
    parseLoop orig (fuel + 1) (fmtInt (fmtFrac u w prec).1 (fmtFrac u w prec).2) 0
      = some (.ok w) := by
  have hval : (fmtFrac u w prec).2 = w / 10 ^ prec := by
    simp only [fmtFrac, fmtFracLoop_value]
  have hpos : 0 < 10 ^ prec := by positivity
  have hsum : w / 10 ^ prec * 10 ^ prec + w % 10 ^ prec = w := by
    rw [Nat.mul_comm]; exact Nat.div_add_mod w _
  have h := parseLoop_fracChunk orig fuel (w / 10 ^ prec) w prec u [] 0 hu hmap startsNum_nil hp
    (Nat.div_le_div_right hw) (by rw [Nat.zero_add, hsum]; exact hw)
  rw [List.append_nil, Nat.zero_add, hsum, parseLoop_nil] at h
  rw [hval]
  exact h

/-- The seconds chunk, the last of a duration of a second or more. -/
theorem parseLoop_seconds (orig : List Nat) (fuel u d : Nat)
    (hd : d + (u / 10 ^ 9 % 60) * 10 ^ 9 + u % 10 ^ 9 ≤ 2 ^ 63) :
    parseLoop orig (fuel + 1) (fmtInt (fmtFrac [115] u 9).1 ((fmtFrac [115] u 9).2 % 60)) d
      = some (.ok (d + (u / 10 ^ 9 % 60) * 10 ^ 9 + u % 10 ^ 9)) := by
  have hval : (fmtFrac [115] u 9).2 = u / 10 ^ 9 := by
    simp only [fmtFrac, fmtFracLoop_value]
  have hmap : unitMap [115] = some (10 ^ 9) := by decide
  have h := parseLoop_fracChunk orig fuel (u / 10 ^ 9 % 60) u 9 [115] [] d isUnitName_s hmap
    startsNum_nil (by decide) (by omega) hd
  rw [List.append_nil, parseLoop_nil] at h
  rw [hval]
  exact h

/-- The loop of `time.ParseDuration` on the text of a duration, sign apart,
returns the duration. -/
theorem parseLoop_fmtAbs (orig : List Nat) (fuel u : Nat) (hu : u ≤ 2 ^ 63) :
    parseLoop orig (fuel + 3) (fmtAbs u) 0 = some (.ok u) := by
  have hSec : Second = 10 ^ 9 := by decide
  have hMs : Millisecond = 10 ^ 6 := by decide
  have hUs : Microsecond = 10 ^ 3 := by decide
  unfold fmtAbs
  rw [hSec, hMs, hUs]
  by_cases h1 : u < 10 ^ 9
  · rw [if_pos h1]
    by_cases h0 : u = 0
    · subst h0; rfl
    · rw [if_neg h0]
      by_cases h2 : u < 10 ^ 3
      · simp only [h2, if_true]
        exact parseLoop_small orig (fuel + 2) u 0 _ isUnitName_ns (by decide) (by decide) hu
      · by_cases h3 : u < 10 ^ 6
        · simp only [h2, h3, if_true, if_false]
          exact parseLoop_small orig (fuel + 2) u 3 _ isUnitName_us (by decide) (by decide) hu
        · simp only [h2, h3, if_false]
          exact parseLoop_small orig (fuel + 2) u 6 _ isUnitName_ms (by decide) (by decide) hu
  · rw [if_neg h1]
    have hval : (fmtFrac [115] u 9).2 = u / 10 ^ 9 := by
      simp only [fmtFrac, fmtFracLoop_value]
    simp only [hval]
    have hH : unitMap [104] = some 3600000000000 := by decide
    have hM : unitMap [109] = some 60000000000 := by decide
    by_cases hm : u / 10 ^ 9 / 60 > 0
    · rw [if_pos hm]
      by_cases hh : u / 10 ^ 9 / 60 / 60 > 0
      · rw [if_pos hh]
        have e1 := parseLoop_intChunk orig (fuel + 2) (u / 10 ^ 9 / 60 / 60) _ [104]
          (fmtInt (109 :: fmtInt (fmtFrac [115] u 9).1 (u / 10 ^ 9 % 60)) (u / 10 ^ 9 / 60 % 60))
          0 isUnitName_h hH (startsNum_fmtInt _ _) (by omega) (by omega)
        have e2 := parseLoop_intChunk orig (fuel + 1) (u / 10 ^ 9 / 60 % 60) _ [109]
          (fmtInt (fmtFrac [115] u 9).1 (u / 10 ^ 9 % 60))
          (0 + u / 10 ^ 9 / 60 / 60 * 3600000000000) isUnitName_m hM (startsNum_fmtInt _ _)
          (by omega) (by omega)
        have e3 := parseLoop_seconds orig fuel u
          (0 + u / 10 ^ 9 / 60 / 60 * 3600000000000 + u / 10 ^ 9 / 60 % 60 * 60000000000)
          (by omega)
        rw [hval] at e3
        rw [show fuel + 3 = fuel + 2 + 1 from rfl]
        erw [e1, e2, e3]
        congr 2
        omega
      · rw [if_neg hh]
        have e2 := parseLoop_intChunk orig (fuel + 2) (u / 10 ^ 9 / 60 % 60) _ [109]
          (fmtInt (fmtFrac [115] u 9).1 (u / 10 ^ 9 % 60))
          0 isUnitName_m hM (startsNum_fmtInt _ _) (by omega) (by omega)
        have e3 := parseLoop_seconds orig (fuel + 1) u
          (0 + u / 10 ^ 9 / 60 % 60 * 60000000000) (by omega)
        rw [hval] at e3
        rw [show fuel + 3 = fuel + 2 + 1 from rfl]
        erw [e2, e3]
        congr 2
        omega
    · rw [if_neg hm]
      have e3 := parseLoop_seconds orig (fuel + 2) u 0 (by omega)
      rw [hval] at e3
      rw [show fuel + 3 = fuel + 2 + 1 from rfl]
      erw [e3]
      congr 2
      omega

theorem fmtAbs_head (u : Nat) : ∃ c tl, fmtAbs u = c :: tl ∧ isDigit c = true := by
  unfold fmtAbs
  simp only
  split_ifs
  · exact ⟨48, [115], rfl, by decide⟩
  all_goals exact fmtInt_head _ _

theorem fmtAbs_ne_zero (u : Nat) (hu : u ≤ 2 ^ 63) : fmtAbs u ≠ str "0" := by
  intro h
  have h1 := parseLoop_fmtAbs [] 0 u hu
  rw [h] at h1
  have h2 : parseLoop [] (0 + 3) (str "0") 0 = some (.error (errMissingUnit [])) := by decide
  rw [h2] at h1
  simp at h1

theorem parseLoop_fmtAbs_length (orig : List Nat) (u : Nat) (hu : u ≤ 2 ^ 63) :
    parseLoop orig (fmtAbs u).length (fmtAbs u) 0 = some (.ok u) := by
  rw [parseLoop_fuel orig (fmtAbs u).length ((fmtAbs u).length + 3) _ _ (le_refl _) (by omega)]
  exact parseLoop_fmtAbs orig _ u hu

/-- On the text `time.Duration(d).String()`, `time.ParseDuration` returns `d`. -/
theorem ParseDuration_String (d : Int) (h : Int64 d) :
    ParseDuration (Duration.String d) = .ok d := by
  have hu : d.natAbs ≤ 2 ^ 63 := by unfold Int64 at h; omega
  obtain ⟨c, tl, hc, hdig⟩ := fmtAbs_head d.natAbs
  have hne0 := fmtAbs_ne_zero d.natAbs hu
  have hloop := fun orig => parseLoop_fmtAbs_length orig d.natAbs hu
  have hcd : 48 ≤ c ∧ c ≤ 57 := by
    simpa only [isDigit, Bool.and_eq_true, decide_eq_true_eq] using hdig
  rw [String_eq d h]
  unfold Int64 at h
  by_cases hd : d < 0
  · rw [if_pos hd]
    unfold ParseDuration
    have hs : dropSign (45 :: fmtAbs d.natAbs) = fmtAbs d.natAbs := by simp [dropSign]
    simp only [hs, if_neg hne0]
    rw [if_neg (by rw [hc]; simp), hloop]
    simp only [beq_self_eq_true, if_true, Except.ok.injEq]
    unfold negInt64 toInt64 toUint64
    split_ifs <;> omega
  · rw [if_neg hd]
    unfold ParseDuration
    have hs : dropSign (fmtAbs d.natAbs) = fmtAbs d.natAbs := by
      rw [hc]
      simp only [dropSign]
      rw [if_neg (by omega)]
    simp only [hs, if_neg hne0]
    rw [if_neg (by rw [hc]; simp), hloop]
    have hneg : (match fmtAbs d.natAbs with
        | c :: _ => c == 45
        | [] => false) = false := by
      rw [hc]
      simp only [beq_eq_false_iff_ne, ne_eq]
      omega
    simp only [hneg, Bool.false_eq_true, if_false]
    rw [if_neg (by omega)]
    simp only [Except.ok.injEq]
    unfold toInt64
    split_ifs <;> omega

/-! ## The codec: short inputs, the empty payload, serialization -/

/-- C4. An input of length 0 or 1 makes `UnmarshalJSON` return the error
`invalid Duration data`. -/
theorem UnmarshalJSON_short (d : Int) (data : List Nat) (h : data.length < 2) :
    (Duration.UnmarshalJSON d data).1 = some (str "invalid Duration data") := by
  simp [Duration.UnmarshalJSON, h]

/-- Witness of `UnmarshalJSON_short` at the empty input and at the input `x`. -/
theorem UnmarshalJSON_short_witness :
    (([] : List Nat).length < 2 ∧
      (Duration.UnmarshalJSON 7 []).1 = some (str "invalid Duration data")) ∧
    ((str "x").length < 2 ∧
      (Duration.UnmarshalJSON 7 (str "x")).1 = some (str "invalid Duration data")) :=
  ⟨⟨by decide, UnmarshalJSON_short 7 [] (by decide)⟩,
   ⟨by decide, UnmarshalJSON_short 7 (str "x") (by decide)⟩⟩

/-- C5. On the two-byte input of an opening and a closing double quote
`UnmarshalJSON` returns the error of `time.ParseDuration` for the empty text,
whatever the target holds; it does not succeed. -/
theorem UnmarshalJSON_empty_payload (d : Int) :
    (Duration.UnmarshalJSON d (str "\"\"")).1 = some (str "time: invalid duration \"\"") ∧
    Duration.UnmarshalJSON d (str "\"\"") ≠ (none, 0) := by
  have h : ParseDuration (((str "\"\"").take ((str "\"\"").length - 1)).drop 1)
      = .error (str "time: invalid duration \"\"") := by decide
  have hl : ¬ (str "\"\"").length < 2 := by decide
  simp only [Duration.UnmarshalJSON, if_neg hl, h]
  simp

/-- C7. `MarshalJSON` never fails and returns a double quote, the text
`time.Duration(d).String()`, and a double quote; the zero `Duration` gives the
four bytes `"0s"`. -/
theorem MarshalJSON_quoted (d : Int) :
    Duration.MarshalJSON d = (34 :: (Duration.String d ++ [34]), none) ∧
    Duration.MarshalJSON 0 = (str "\"0s\"", none) := by
  refine ⟨?_, by decide⟩
  simp [Duration.MarshalJSON, str]

/-- When `time.ParseDuration` accepts the inner text of an input of two bytes
or more, `UnmarshalJSON` stores the parsed value. -/
theorem UnmarshalJSON_of_parse (d0 : Int) (data : List Nat) (p : Int)
    (hlen : 2 ≤ data.length) (hp : ParseDuration (inner data) = .ok p) :
    Duration.UnmarshalJSON d0 data = (none, p) := by
  have hl : ¬ data.length < 2 := by omega
  unfold inner at hp
  simp only [Duration.UnmarshalJSON, if_neg hl, hp]

/-- C3. When the input has at least two bytes and `time.ParseDuration` accepts
its inner text with the value `p`, `UnmarshalJSON` returns no error and the
target holds `p`, whatever it held before. -/
theorem UnmarshalJSON_valid (d0 : Int) (data : List Nat) (p : Int)
    (hlen : 2 ≤ data.length) (hp : ParseDuration (inner data) = .ok p) :
    (Duration.UnmarshalJSON d0 data).1 = none ∧ (Duration.UnmarshalJSON d0 data).2 = p := by
  rw [UnmarshalJSON_of_parse d0 data p hlen hp]
  exact ⟨rfl, rfl⟩

/-- Witness of `UnmarshalJSON_valid` at the quoted texts `1h30m` and `0s`, with
the target holding 7 before. -/
theorem UnmarshalJSON_valid_witness :
    ((Duration.UnmarshalJSON 7 (str "\"1h30m\"")).1 = none ∧
      (Duration.UnmarshalJSON 7 (str "\"1h30m\"")).2 = 5400000000000) ∧
    ((Duration.UnmarshalJSON 7 (str "\"0s\"")).1 = none ∧
      (Duration.UnmarshalJSON 7 (str "\"0s\"")).2 = 0) :=
  ⟨UnmarshalJSON_valid 7 (str "\"1h30m\"") 5400000000000 (by decide) (by decide),
   UnmarshalJSON_valid 7 (str "\"0s\"") 0 (by decide) (by decide)⟩

/-- C6 as amended. When the input has at least two bytes and its inner text
is neither the text `0` with an optional sign nor a signed sequence of decimal
numbers, each followed by one of the units `ns`, `us`, `µs`, `μs`, `ms`, `s`,
`m`, `h`, `UnmarshalJSON` returns an error. -/
theorem UnmarshalJSON_rejects (d0 : Int) (data : List Nat) (hlen : 2 ≤ data.length)
    (h : wideDuration (inner data) = false) :
    ∃ err, (Duration.UnmarshalJSON d0 data).1 = some err := by
  have hl : ¬ data.length < 2 := by omega
  simp only [Duration.UnmarshalJSON, if_neg hl]
  cases hp : ParseDuration ((data.take (data.length - 1)).drop 1) with
  | error err => exact ⟨err, rfl⟩
  | ok p =>
    have := ParseDuration_ok_wide _ _ hp
    unfold inner at h
    rw [h] at this
    exact absurd this (by simp)

/-- Witness of `UnmarshalJSON_rejects` at the quoted text `1d`: `d` is not a unit. -/
theorem UnmarshalJSON_rejects_witness :
    2 ≤ (str "\"1d\"").length ∧ wideDuration (inner (str "\"1d\"")) = false ∧
    ∃ err, (Duration.UnmarshalJSON 7 (str "\"1d\"")).1 = some err :=
  ⟨by decide, by decide, UnmarshalJSON_rejects 7 (str "\"1d\"") (by decide) (by decide)⟩

/-- C6 as stated fails. The inner texts `0` and `1µs` are not sequences of
numbers each followed by one of `ns`, `us`, `ms`, `s`, `m`, `h`, and
`UnmarshalJSON` accepts both, with the values 0 and 1000. -/
theorem UnmarshalJSON_accepts_more :
    (2 ≤ (str "\"0\"").length ∧ plainDuration (inner (str "\"0\"")) = false ∧
      Duration.UnmarshalJSON 7 (str "\"0\"") = (none, 0)) ∧
    (2 ≤ [34, 49, 0xC2, 0xB5, 115, 34].length ∧
      plainDuration (inner [34, 49, 0xC2, 0xB5, 115, 34]) = false ∧
      Duration.UnmarshalJSON 7 [34, 49, 0xC2, 0xB5, 115, 34] = (none, 1000)) := by
  decide

/-! ## The codec: round trip -/

/-- C1. For every `Duration` value `d`, the minimum and the maximum `int64`
included, `MarshalJSON` returns no error and `UnmarshalJSON` on the bytes it
returns gives no error and sets the target to `d`, whatever it held before. -/
theorem UnmarshalJSON_MarshalJSON (d d0 : Int) (h : Int64 d) :
    (Duration.MarshalJSON d).2 = none ∧
    Duration.UnmarshalJSON d0 (Duration.MarshalJSON d).1 = (none, d) := by
  refine ⟨rfl, ?_⟩
  have hm : (Duration.MarshalJSON d).1 = 34 :: (Duration.String d ++ [34]) := by
    simp [Duration.MarshalJSON, str]
  rw [hm]
  apply UnmarshalJSON_of_parse
  · simp
  · have hin : inner (34 :: (Duration.String d ++ [34])) = Duration.String d := by
      simp [inner]
    rw [hin]
    exact ParseDuration_String d h

/-- Witness of `UnmarshalJSON_MarshalJSON` at the minimum and at the maximum
`int64`, with the target holding 7 before. -/
theorem UnmarshalJSON_MarshalJSON_witness :
    (Int64 (-2 ^ 63) ∧ (Duration.MarshalJSON (-2 ^ 63)).2 = none ∧
      Duration.UnmarshalJSON 7 (Duration.MarshalJSON (-2 ^ 63)).1 = (none, -2 ^ 63)) ∧
    (Int64 (2 ^ 63 - 1) ∧ (Duration.MarshalJSON (2 ^ 63 - 1)).2 = none ∧
      Duration.UnmarshalJSON 7 (Duration.MarshalJSON (2 ^ 63 - 1)).1 = (none, 2 ^ 63 - 1)) :=
  ⟨⟨by decide, UnmarshalJSON_MarshalJSON (-2 ^ 63) 7 (by decide)⟩,
   ⟨by decide, UnmarshalJSON_MarshalJSON (2 ^ 63 - 1) 7 (by decide)⟩⟩

/-! ## `defaultOptions` and `merge` -/

/-- C8. The struct that `defaultOptions()` returns has `PinCPU`, `PinMemory`
and `PreferIsolated` true, `PreferShared` false, both periods and the page
count zero, and `FakeHints` a non-nil map, allocated, with no entries. -/
theorem defaultOptions_defaults {H : Type} (m : Mem H) :
    ∃ o a, (defaultOptions m).2.opts.get? (defaultOptions m).1 = some o ∧
      o.PinCPU = true ∧ o.PinMemory = true ∧ o.PreferIsolated = true ∧
      o.PreferShared = false ∧ o.FakeHints = some a ∧
      (defaultOptions m).2.maps.get? a = some [] ∧
      (defaultOptions m).2.entries o.FakeHints = [] ∧
      o.DirtyBitScanPeriod = 0 ∧ o.PageMovePeriod = 0 ∧ o.PageMoveCount = 0 := by
  refine ⟨⟨true, true, true, false, some m.maps.length, 0, 0, 0⟩, m.maps.length,
    ?_, rfl, rfl, rfl, rfl, rfl, ?_, ?_, rfl, rfl, rfl⟩
  · simp [defaultOptions, Mem.make]
  · simp [defaultOptions, Mem.make]
  · simp [defaultOptions, Mem.make, Mem.entries]

/-- C2, the code at the example of the specification: with the target `{a: 1}`
and the incoming map `{b: 2}`, `merge` returns with the memory as it was; the
target still holds `a` and has no entry for `b`. -/
theorem merge_copies_nothing :
    merge memTargetA (.var 0) (some 1) = .ok memTargetA ∧
    memTargetA.load (.var 0) = .ok (some 0) ∧
    memTargetA.lookup (some 1) (str "b") = some 2 ∧
    memTargetA.lookup (some 0) (str "a") = some 1 ∧
    memTargetA.lookup (some 0) (str "b") = none := by
  refine ⟨rfl, rfl, ?_, ?_, ?_⟩ <;> decide

/-- C9, the code at a nil map reached through a valid pointer: `merge` returns
with the memory as it was, and the target is still the nil map. -/
theorem merge_leaves_nil_map :
    merge memTargetNil (.var 0) (some 0) = .ok memTargetNil ∧
    memTargetNil.load (.var 0) = .ok none ∧
    memTargetNil.lookup (some 0) (str "b") = some 2 ∧
    memTargetNil.lookup none (str "b") = none := by
  refine ⟨rfl, rfl, ?_, ?_⟩ <;> decide

/-- A call of `merge` through the address of a field returns with the memory
as it was. -/
theorem mergeAll_field {H : Type} (m : Mem H) (o : Nat) (hs : List fakehints) :
    mergeAll m (.field o) hs = .ok m := by
  induction hs with
  | nil => rfl
  | cons h hs ih => simp [mergeAll, merge, ih]

/-- C10. The `FakeHints` of the struct that `defaultOptions()` returns is a
non-nil map, and it still is after any sequence of `merge` calls on it, with
any incoming maps: every call returns, and the field holds the address of an
allocated map object. -/
theorem FakeHints_never_nil {H : Type} (m : Mem H) (hs : List fakehints) :
    ∃ m1 a, mergeAll (defaultOptions m).2 (.field (defaultOptions m).1) hs = .ok m1 ∧
      m1.load (.field (defaultOptions m).1) = .ok (some a) ∧ a < m1.maps.length := by
  refine ⟨(defaultOptions m).2, m.maps.length, mergeAll_field _ _ _, ?_, ?_⟩
  · simp [defaultOptions, Mem.make, Mem.load]
  · simp [defaultOptions, Mem.make]

/-! ## The codec: the text of an hour and a half, failures, delimiters -/

/-- C11 as amended. `MarshalJSON` of the `Duration` of one hour thirty minutes,
5400000000000 ns, returns no error and the nine bytes `"1h30m0s"`, the double
quotes included: `time.Duration.String` always writes the seconds. -/
theorem MarshalJSON_hour_and_half :
    Duration.MarshalJSON 5400000000000 = (str "\"1h30m0s\"", none) := by
  decide

/-- C11 as stated fails: the bytes that `MarshalJSON` returns for
5400000000000 ns are not the seven bytes `"1h30m"`. -/
theorem MarshalJSON_hour_and_half_not_short :
    (Duration.MarshalJSON 5400000000000).1 ≠ str "\"1h30m\"" := by
  decide

/-- C16. When `UnmarshalJSON` returns an error, the target holds the value it
held before the call. -/
theorem UnmarshalJSON_error_keeps (d0 : Int) (data : List Nat)
    (h : (Duration.UnmarshalJSON d0 data).1 ≠ none) :
    (Duration.UnmarshalJSON d0 data).2 = d0 := by
  unfold Duration.UnmarshalJSON at h ⊢
  split
  · rfl
  · rename_i hl
    rw [if_neg hl] at h
    split
    · rfl
    · rename_i p hp
      rw [hp] at h
      exact absurd rfl h

/-- Witness of `UnmarshalJSON_error_keeps` at the input `x` and at the quoted
text `1d`, with the target holding 7 before. -/
theorem UnmarshalJSON_error_keeps_witness :
    ((Duration.UnmarshalJSON 7 (str "x")).1 ≠ none ∧
      (Duration.UnmarshalJSON 7 (str "x")).2 = 7) ∧
    ((Duration.UnmarshalJSON 7 (str "\"1d\"")).1 ≠ none ∧
      (Duration.UnmarshalJSON 7 (str "\"1d\"")).2 = 7) :=
  ⟨⟨by decide, UnmarshalJSON_error_keeps 7 (str "x") (by decide)⟩,
   ⟨by decide, UnmarshalJSON_error_keeps 7 (str "\"1d\"") (by decide)⟩⟩

theorem inner_cons_append (a b : Nat) (s : List Nat) : inner (a :: (s ++ [b])) = s := by
  simp [inner]

/-- C17. The first and the last byte of the input are not looked at: for any
bytes `a`, `b`, `a1`, `b1` and any text `s`, `UnmarshalJSON` gives the same
error and the same target on `a`, `s`, `b` and on `a1`, `s`, `b1`; the input
`x1sx` is accepted and gives one second. -/
theorem UnmarshalJSON_delimiters (d0 : Int) (a b a1 b1 : Nat) (s : List Nat) :
    Duration.UnmarshalJSON d0 (a :: (s ++ [b])) = Duration.UnmarshalJSON d0 (a1 :: (s ++ [b1])) ∧
    Duration.UnmarshalJSON d0 (str "x1sx") = (none, 1000000000) := by
  constructor
  · have h1 := inner_cons_append a b s
    have h2 := inner_cons_append a1 b1 s
    unfold inner at h1 h2
    have hl1 : ¬ (a :: (s ++ [b])).length < 2 := by simp
    have hl2 : ¬ (a1 :: (s ++ [b1])).length < 2 := by simp
    simp only [Duration.UnmarshalJSON, if_neg hl1, if_neg hl2, h1, h2]
  · have hp : ParseDuration (((str "x1sx").take ((str "x1sx").length - 1)).drop 1)
        = .ok 1000000000 := by decide
    have hl : ¬ (str "x1sx").length < 2 := by decide
    simp only [Duration.UnmarshalJSON, if_neg hl, hp]

/-! ## `merge`: no effect, and the fault -/

/-- C14. When the target holds an initialised map, `merge` returns and leaves
the memory as it was, whatever the incoming map: the target still holds the
same map object with the same entries. -/
theorem merge_noop {H : Type} (m : Mem H) (fh : FakehintsPtr) (a : Nat) (hints : fakehints)
    (h : m.load fh = .ok (some a)) :
    ∃ m1, merge m fh hints = .ok m1 ∧ m1.load fh = .ok (some a) ∧
      m1.entries (some a) = m.entries (some a) ∧ m1.maps = m.maps ∧
      m1.opts = m.opts ∧ m1.vars = m.vars := by
  have hne : fh ≠ .nil := by
    intro hn
    rw [hn] at h
    simp [Mem.load] at h
  exact ⟨m, by simp [merge, hne], h, rfl, rfl, rfl, rfl⟩

/-- Witness of `merge_noop` at the target `{a: 1}` and the incoming map
`{b: 2}`. -/
theorem merge_noop_witness :
    memTargetA.load (.var 0) = .ok (some 0) ∧
    ∃ m1, merge memTargetA (.var 0) (some 1) = .ok m1 ∧ m1.load (.var 0) = .ok (some 0) ∧
      m1.entries (some 0) = memTargetA.entries (some 0) ∧ m1.maps = memTargetA.maps ∧
      m1.opts = memTargetA.opts ∧ m1.vars = memTargetA.vars :=
  ⟨rfl, merge_noop memTargetA (.var 0) 0 (some 1) rfl⟩

/-- C18. With a non-nil receiver, the address of a variable or of a field,
`merge` returns without a fault and without a write, whatever the receiver
points to and whatever the incoming map; with the nil receiver it takes the
branch `fh == nil`, writes through the nil pointer and faults. -/
theorem merge_fault {H : Type} (m : Mem H) (hints : fakehints) (i o : Nat) :
    merge m (.var i) hints = .ok m ∧ merge m (.field o) hints = .ok m ∧
    merge m .nil hints = .error .nilDereference := by
  refine ⟨?_, ?_, ?_⟩ <;> simp [merge, newFakeHints, Mem.make, Mem.store]

theorem quote_plain (s : List Nat) (h : ∀ c ∈ s, isPlainByte c = true) :
    quote s = 34 :: (s ++ [34]) := by
  have hmap : (s.flatMap fun c =>
      if c ≥ 0x80 ∨ c < 32 then [92, 120, lowerhex (c / 16), lowerhex (c % 16)]
      else if c = 34 ∨ c = 92 then [92, c]
      else [c]) = s := by
    induction s with
    | nil => rfl
    | cons c s ih =>
      have hc := h c (by simp)
      simp only [isPlainByte, Bool.and_eq_true, decide_eq_true_eq, bne_iff_ne, ne_eq] at hc
      have h1 : ¬ (c ≥ 128 ∨ c < 32) := by omega
      have h2 : ¬ (c = 34 ∨ c = 92) := by omega
      have := ih (fun x hx => h x (by simp [hx]))
      simp only [List.flatMap_cons, h1, h2, if_false, this]
      rfl
  unfold quote
  rw [hmap]
  rfl

theorem addChunk_fail (orig : List Nat) (v f : Nat) (scale : F64) (unit : Nat)
    (s : List Nat) (d : Nat) (err : List Nat)
    (h : addChunk orig v f scale unit s d = .fail err) : quote orig <:+ err := by
  unfold addChunk at h
  simp only at h
  split_ifs at h <;> cases h <;> exact List.suffix_append _ _

theorem parseChunk_fail (orig : List Nat) (c : Nat) (s0 : List Nat) (d : Nat) (err : List Nat)
    (h : parseChunk orig c s0 d = .fail err) : quote orig <:+ err := by
  unfold parseChunk at h
  split at h
  · cases h; exact List.suffix_append _ _
  simp only at h
  split at h
  · cases h; exact List.suffix_append _ _
  split at h
  · cases h; exact List.suffix_append _ _
  split at h
  · cases h; exact List.suffix_append _ _
  split at h
  · cases h; exact List.suffix_append _ _
  · exact addChunk_fail _ _ _ _ _ _ _ _ h

theorem parseLoop_fail (orig : List Nat) :
    ∀ (fuel : Nat) (s : List Nat) (d : Nat) (err : List Nat),
    parseLoop orig fuel s d = some (.error err) → quote orig <:+ err := by
  intro fuel
  induction fuel with
  | zero =>
    intro s d err h
    cases s with
    | nil => simp [parseLoop] at h
    | cons c s0 => simp [parseLoop] at h
  | succ fuel ih =>
    intro s d err h
    cases s with
    | nil => simp [parseLoop] at h
    | cons c s0 =>
      rw [parseLoop] at h
      cases hc : parseChunk orig c s0 d with
      | fail e =>
        rw [hc] at h
        simp only [Option.some.injEq, Except.error.injEq] at h
        subst h
        exact parseChunk_fail _ _ _ _ _ hc
      | next s2 d2 =>
        rw [hc] at h
        exact ih _ _ _ h

/-- Every error of `time.ParseDuration` ends with `quote` of the text. -/
theorem ParseDuration_error (orig err : List Nat) (h : ParseDuration orig = .error err) :
    quote orig <:+ err := by
  unfold ParseDuration at h
  simp only at h
  split at h
  · cases h
  split at h
  · cases h; exact List.suffix_append _ _
  split at h
  · rename_i hn
    obtain ⟨r, hr⟩ := parseLoop_returns orig
    rw [hr] at hn
    cases hn
  · rename_i e he
    cases h
    exact parseLoop_fail _ _ _ _ _ he
  · split at h
    · cases h
    · split at h
      · cases h; exact List.suffix_append _ _
      · cases h

/-- C15 as amended. When `UnmarshalJSON` fails on an input of length 0 or 1,
the message is the fixed text `invalid Duration data`. When it fails on an
input of two bytes or more, the message ends with `time.quote` of the inner
text; when that input is a double quote, printable ASCII bytes other than the
double quote and the backslash, and a double quote, the message ends with the
input itself. -/
theorem UnmarshalJSON_error_message (d0 : Int) (data err : List Nat)
    (h : (Duration.UnmarshalJSON d0 data).1 = some err) :
    (data.length < 2 → err = str "invalid Duration data") ∧
    (2 ≤ data.length → quote (inner data) <:+ err) ∧
    (∀ s, data = 34 :: (s ++ [34]) → (∀ c ∈ s, isPlainByte c = true) → data <:+ err) := by
  have key : 2 ≤ data.length → quote (inner data) <:+ err := by
    intro hlen
    have hl : ¬ data.length < 2 := by omega
    unfold Duration.UnmarshalJSON at h
    rw [if_neg hl] at h
    unfold inner
    split at h
    · rename_i e he
      simp only [Option.some.injEq] at h
      subst h
      exact ParseDuration_error _ _ he
    · simp at h
  refine ⟨?_, key, ?_⟩
  · intro hlen
    unfold Duration.UnmarshalJSON at h
    rw [if_pos hlen] at h
    simp only [Option.some.injEq] at h
    exact h.symm
  · intro s hs hplain
    have hk := key (by rw [hs]; simp)
    rw [hs, inner_cons_append, quote_plain s hplain] at hk
    rw [hs]
    exact hk

/-- Witness of `UnmarshalJSON_error_message` at the quoted text `1d`, whose
error message ends with the input. -/
theorem UnmarshalJSON_error_message_witness :
    (Duration.UnmarshalJSON 7 (str "\"1d\"")).1
      = some (str "time: unknown unit \"d\" in duration \"1d\"") ∧
    (str "\"1d\"") <:+ (str "time: unknown unit \"d\" in duration \"1d\"") :=
  ⟨by decide,
   (UnmarshalJSON_error_message 7 (str "\"1d\"")
      (str "time: unknown unit \"d\" in duration \"1d\"") (by decide)).2.2
      (str "1d") (by decide) (by decide)⟩

/-- C15 as stated fails. On the input `x` the message is `invalid Duration
data`, and on the input `x1dx` it names the unit and the inner text `1d`;
neither message contains the input. -/
theorem UnmarshalJSON_error_without_input :
    ((Duration.UnmarshalJSON 7 (str "x")).1 = some (str "invalid Duration data") ∧
      ¬ (str "x") <:+: (str "invalid Duration data")) ∧
    ((Duration.UnmarshalJSON 7 (str "x1dx")).1
        = some (str "time: unknown unit \"d\" in duration \"1d\"") ∧
      ¬ (str "x1dx") <:+: (str "time: unknown unit \"d\" in duration \"1d\"")) := by
  decide

/-! ## Two default instances share nothing -/

theorem getElem_append_two_left {α : Type} (l : List α) (x y : α)
    (h : l.length < (l ++ [x, y]).length) : (l ++ [x, y])[l.length] = x := by
  rw [List.getElem_append_right (le_refl _)]
  simp

theorem getElem_append_two_right {α : Type} (l : List α) (x y : α)
    (h : l.length + 1 < (l ++ [x, y]).length) : (l ++ [x, y])[l.length + 1] = y := by
  rw [List.getElem_append_right (by omega)]
  simp

/-- C12. Two calls of `defaultOptions()` return two structs at different
addresses, equal field by field, each with its own empty `FakeHints` map
object. A write to the map of either one (`fh[k] = v`), or a write of any
value to either struct, returns and leaves the other struct and the entries
of its map as they were. -/
theorem defaultOptions_independent {H : Type} (m : Mem H) (k : List Nat) (v : H) (w : options) :
    ∃ o1 o2 a1 a2,
      (twoDefaults m).2.2.opts.get? (twoDefaults m).1 = some o1 ∧
      (twoDefaults m).2.2.opts.get? (twoDefaults m).2.1 = some o2 ∧
      (twoDefaults m).1 ≠ (twoDefaults m).2.1 ∧
      o1.FakeHints = some a1 ∧ o2.FakeHints = some a2 ∧ a1 ≠ a2 ∧
      { o1 with FakeHints := none } = { o2 with FakeHints := none } ∧
      (twoDefaults m).2.2.entries (some a1) = [] ∧
      (twoDefaults m).2.2.entries (some a2) = [] ∧
      (∃ m1, (twoDefaults m).2.2.insert (some a1) k v = .ok m1 ∧
        m1.lookup (some a1) k = some v ∧
        m1.opts.get? (twoDefaults m).2.1 = some o2 ∧ m1.entries (some a2) = []) ∧
      (∃ m1, (twoDefaults m).2.2.insert (some a2) k v = .ok m1 ∧
        m1.lookup (some a2) k = some v ∧
        m1.opts.get? (twoDefaults m).1 = some o1 ∧ m1.entries (some a1) = []) ∧
      (∃ m1, (twoDefaults m).2.2.storeOptions (twoDefaults m).1 w = .ok m1 ∧
        m1.opts.get? (twoDefaults m).1 = some w ∧
        m1.opts.get? (twoDefaults m).2.1 = some o2 ∧ m1.entries (some a2) = []) ∧
      (∃ m1, (twoDefaults m).2.2.storeOptions (twoDefaults m).2.1 w = .ok m1 ∧
        m1.opts.get? (twoDefaults m).2.1 = some w ∧
        m1.opts.get? (twoDefaults m).1 = some o1 ∧ m1.entries (some a1) = []) := by
  refine ⟨⟨true, true, true, false, some m.maps.length, 0, 0, 0⟩,
    ⟨true, true, true, false, some (m.maps.length + 1), 0, 0, 0⟩,
    m.maps.length, m.maps.length + 1, ?_, ?_, ?_, rfl, rfl, by omega, rfl, ?_, ?_, ?_, ?_, ?_, ?_⟩
  · simp [twoDefaults, defaultOptions, Mem.make, getElem_append_two_left,
      getElem_append_two_right]
  · simp [twoDefaults, defaultOptions, Mem.make, getElem_append_two_left,
      getElem_append_two_right]
  · simp [twoDefaults, defaultOptions, Mem.make]
  · simp [twoDefaults, defaultOptions, Mem.make, Mem.entries, getElem_append_two_left,
      getElem_append_two_right]
  · simp [twoDefaults, defaultOptions, Mem.make, Mem.entries, getElem_append_two_left,
      getElem_append_two_right]
  · simp [twoDefaults, defaultOptions, Mem.make, Mem.entries, Mem.insert, Mem.lookup,
      insertEntry, getElem_append_two_left, getElem_append_two_right]
  · simp [twoDefaults, defaultOptions, Mem.make, Mem.entries, Mem.insert, Mem.lookup,
      insertEntry, getElem_append_two_left, getElem_append_two_right]
  · simp [twoDefaults, defaultOptions, Mem.make, Mem.entries, Mem.storeOptions,
      getElem_append_two_left, getElem_append_two_right]
  · simp [twoDefaults, defaultOptions, Mem.make, Mem.entries, Mem.storeOptions,
      getElem_append_two_left, getElem_append_two_right]

/-! ## The load scenario -/

theorem scenario_members : members scenarioDoc =
    some [(str "PinCPU", str "false"), (str "PageMoveCount", str "5"),
      (str "PageMovePeriod", str "\"10s\"")] := by
  decide

/-- The document of the scenario, loaded over any instance, sets `PinCPU`,
`PageMoveCount` and `PageMovePeriod` and nothing else. -/
theorem loadOver_scenario (o : options) :
    loadOver o scenarioDoc
      = some { o with PinCPU := false, PageMoveCount := 5, PageMovePeriod := 10000000000 } := by
  have hd : Duration.UnmarshalJSON o.PageMovePeriod (str "\"10s\"") = (none, 10000000000) :=
    UnmarshalJSON_of_parse _ _ _ (by decide) (by decide)
  have h1 : setField o (str "PinCPU") (str "false") = some { o with PinCPU := false } := rfl
  have h2 : setField { o with PinCPU := false } (str "PageMoveCount") (str "5")
      = some { o with PinCPU := false, PageMoveCount := 5 } := rfl
  have h3 : setField { o with PinCPU := false, PageMoveCount := 5 } (str "PageMovePeriod")
      (str "\"10s\"")
      = some { o with PinCPU := false, PageMoveCount := 5, PageMovePeriod := 10000000000 } := by
    have hk : ∀ k, k ∈ [str "PinCPU", str "PinMemory", str "PreferIsolatedCPUs",
        str "PreferSharedCPUs", str "DirtyBitScanPeriod"] → str "PageMovePeriod" ≠ k := by
      decide
    unfold setField
    rw [if_neg (hk _ (by simp)), if_neg (hk _ (by simp)), if_neg (hk _ (by simp)),
      if_neg (hk _ (by simp)), if_neg (hk _ (by simp)), if_pos rfl]
    simp only [decodeDuration, hd]
  unfold loadOver
  rw [scenario_members]
  simp only [setFields, h1, h2, h3]

/-- C13. The document of the scenario, loaded over the instance that
`defaultOptions()` returns, gives `PinCPU` false, `PageMoveCount` 5 and
`PageMovePeriod` 10000000000 ns, and leaves `PinMemory` and `PreferIsolated`
true, `PreferShared` false, `FakeHints` the same empty map and
`DirtyBitScanPeriod` zero. -/
theorem load_scenario {H : Type} (m : Mem H) :
    ∃ o o1, (defaultOptions m).2.opts.get? (defaultOptions m).1 = some o ∧
      loadOver o scenarioDoc = some o1 ∧
      o1.PinCPU = false ∧ o1.PageMoveCount = 5 ∧ o1.PageMovePeriod = 10000000000 ∧
      o1.PinMemory = true ∧ o1.PreferIsolated = true ∧ o1.PreferShared = false ∧
      o1.FakeHints = o.FakeHints ∧ (defaultOptions m).2.entries o1.FakeHints = [] ∧
      o1.DirtyBitScanPeriod = 0 := by
  refine ⟨⟨true, true, true, false, some m.maps.length, 0, 0, 0⟩, _, ?_,
    loadOver_scenario _, rfl, rfl, rfl, rfl, rfl, rfl, rfl, ?_, rfl⟩
  · simp [defaultOptions, Mem.make]
  · simp [defaultOptions, Mem.make, Mem.entries]

/-! ## The embedding of the `time` package on known values

The values below are the ones the Go documentation and the tests of the `time`
package give for `Duration.String` and `ParseDuration`; the last three also go
through the `float64` step. -/

theorem String_zero : Duration.String 0 = str "0s" := by decide

theorem String_ns : Duration.String 1 = str "1ns" := by decide

theorem String_us : Duration.String 1100 = [49, 46, 49, 0xC2, 0xB5, 115] := by decide

theorem String_ms : Duration.String 2200000 = str "2.2ms" := by decide

theorem String_s : Duration.String 3300000000 = str "3.3s" := by decide

theorem String_m : Duration.String 245000000000 = str "4m5s" := by decide

theorem String_h : Duration.String 18367001000000 = str "5h6m7.001s" := by decide

theorem String_m_ns : Duration.String 480000000001 = str "8m0.000000001s" := by decide

theorem String_doc : Duration.String 259380500000000 = str "72h3m0.5s" := by decide

theorem String_hour_and_half : Duration.String 5400000000000 = str "1h30m0s" := by decide

theorem String_max : Duration.String (2 ^ 63 - 1) = str "2562047h47m16.854775807s" := by decide

theorem String_min : Duration.String (-2 ^ 63) = str "-2562047h47m16.854775808s" := by decide

theorem Parse_zero : ParseDuration (str "0") = .ok 0 ∧ ParseDuration (str "-0") = .ok 0 ∧
    ParseDuration (str "+0") = .ok 0 := by decide

theorem Parse_units : ParseDuration (str "1h2m3s4ms5us6ns") = .ok 3723004005006 := by decide

theorem Parse_micro : ParseDuration [49, 50, 0xC2, 0xB5, 115] = .ok 12000 ∧
    ParseDuration [49, 50, 0xCE, 0xBC, 115] = .ok 12000 := by decide

theorem Parse_order : ParseDuration (str "10.5s4m") = .ok 250500000000 := by decide

theorem Parse_negative : ParseDuration (str "-2m3.4s") = .ok (-123400000000) := by decide

theorem Parse_point : ParseDuration (str "5.s") = .ok 5000000000 ∧
    ParseDuration (str ".5s") = .ok 500000000 := by decide

theorem Parse_max : ParseDuration (str "9223372036854775807ns") = .ok (2 ^ 63 - 1) := by decide

theorem Parse_min : ParseDuration (str "-9223372036854775808ns") = .ok (-2 ^ 63) := by decide

theorem Parse_overflow :
    ParseDuration (str "9223372036854775808ns")
      = .error (str "time: invalid duration \"9223372036854775808ns\"") ∧
    ParseDuration (str "3000000h") = .error (str "time: invalid duration \"3000000h\"") := by
  decide

theorem Parse_errors :
    ParseDuration (str "") = .error (str "time: invalid duration \"\"") ∧
    ParseDuration (str "3") = .error (str "time: missing unit in duration \"3\"") ∧
    ParseDuration (str "1d") = .error (str "time: unknown unit \"d\" in duration \"1d\"") ∧
    ParseDuration (str "+.s") = .error (str "time: invalid duration \"+.s\"") ∧
    ParseDuration [0x85, 0x85] = .error (str "time: invalid duration \"\\x85\\x85\"") := by
  decide

theorem Parse_float_third : ParseDuration (str "0.3333333333333333333h") = .ok 1200000000000 := by
  decide

theorem Parse_float_tenth :
    ParseDuration (str "0.100000000000000000000h") = .ok 360000000000 := by
  decide

theorem Parse_float_long :
    ParseDuration (str "0.830103483285477580700h") = .ok 2988372539827 := by
  decide

theorem F64_tenth :
    F64.div (F64.ofNat 1) (F64.ofNat 10) = .fin (3602879701896397 * (1 <<< (1074 - 55))) := by
  decide

theorem F64_ties_to_even : F64.ofNat (2 ^ 53 + 1) = .fin (2 ^ 53 * F64.den) ∧
    F64.ofNat (2 ^ 53 + 3) = .fin ((2 ^ 53 + 4) * F64.den) := by
  decide

end Memtier
